import Mathlib

/-!
Verification of the distributed web-crawling core of the
Amor-Distributed-Artificial-Intelligence-System repository.

Shallow embedding of:
  - src/document_processor/crawling/url_frontier.py
      (URL normalization, Bloom-filter config and operations,
       DistributedURLFrontier.add_url / get_next_url / _can_crawl_domain)
  - src/document_processor/crawling/resilient_scraper.py
      (DomainCircuitBreaker, ResilientScraper._fetch_with_retry)
  - src/document_processor/reliability/circuit_breaker.py
      (CircuitBreaker._on_success / _on_failure / get_state)
  - src/document_processor/crawling/scheduler.py
      (CrawlScheduler._check_backpressure, the blocked-host branch of
       CrawlScheduler._worker)

Modelling conventions:
  - Strings are List Char.  Python's urllib.parse.urlparse (CPython 3.11) is
    embedded directly; the ValueError branches for malformed bracketed hosts
    are omitted (inputs that raise produce no normalized URL at all, so no
    claim about normalize's output applies to them).  str.lower is modelled
    by Char.toLower (ASCII case mapping), matching the ASCII URLs the system
    handles.
  - Wall-clock instants and delays (Python floats used only in comparisons,
    subtractions and table lookups) are modelled over Int.
  - Redis structures are modelled by their abstract contents: the Bloom bit
    array as the list of set bit positions, the sorted set as a list of
    (member, score) pairs kept sorted by (score, member), hashes as
    association lists, lists as Lean lists.  Each frontier call is one
    atomic step (the event loop runs one coroutine at a time between awaits).
  - The Bloom hash positions (SHA256/MD5 double hashing) are an abstract
    parameter hpos; every theorem below holds for every choice of hpos.
  - Bloom-filter sizing (math.log over floats) is modelled over ℝ, with
    Python's int() truncation made explicit.
-/

/-! ## Python string helpers (List Char) -/

/-- Lexicographic comparison of Python strings (code-point order),
as used by Python's sorted on a list of str. -/
def lexLe : List Char → List Char → Bool
  | [], _ => true
  | _ :: _, [] => false
  | a :: as_, b :: bs =>
    if a.toNat < b.toNat then true
    else if b.toNat < a.toNat then false
    else lexLe as_ bs

/-- Insert into a lexLe-sorted list of strings. -/
def insertSorted (a : List Char) : List (List Char) → List (List Char)
  | [] => [a]
  | b :: bs => if lexLe a b then a :: b :: bs else b :: insertSorted a bs

/-- Python sorted on a list of str.  Modelled by insertion sort: lexLe is a
total antisymmetric order on strings, so every correct sort produces the
same list as Python's. -/
def pySorted : List (List Char) → List (List Char)
  | [] => []
  | a :: as_ => insertSorted a (pySorted as_)

/-- Python s.split(sep, 1) for a one-character separator: the part before the
first occurrence of sep and the part after it (the whole string and [] when
sep does not occur, matching the callers, which leave the second component
empty in that case). -/
def split1 (sep : Char) : List Char → List Char × List Char
  | [] => ([], [])
  | c :: cs =>
    if c = sep then ([], cs)
    else
      let p := split1 sep cs
      (c :: p.1, p.2)

/-- Python s.split(sep) for a one-character separator: every occurrence
splits, adjacent separators yield empty parts, the result is never empty. -/
def pySplit (sep : Char) : List Char → List (List Char)
  | [] => [[]]
  | c :: cs =>
    if c = sep then [] :: pySplit sep cs
    else
      match pySplit sep cs with
      | [] => [[c]]
      | s :: ss => (c :: s) :: ss

/-- Python sep.join(parts) for a one-character separator. -/
def pyJoin (sep : Char) : List (List Char) → List Char
  | [] => []
  | [s] => s
  | s :: ss => s ++ sep :: pyJoin sep ss

/-- Python s.rstrip(c) for one character c = '/': remove all trailing
slashes. -/
def rstripSlash : List Char → List Char
  | [] => []
  | c :: cs =>
    let r := rstripSlash cs
    if r = [] ∧ c = '/' then [] else c :: r

/-- Python s.lower() (ASCII case mapping). -/
def pyLower (l : List Char) : List Char := l.map Char.toLower

/-- Python s.endswith(suf). -/
def endsWith (suf l : List Char) : Bool := suf.isSuffixOf l

/-! ## urllib.parse.urlsplit / urlparse (CPython 3.11) -/

/-- A character of _WHATWG_C0_CONTROL_OR_SPACE (code point at most 0x20);
urlsplit lstrips these. -/
def isC0OrSpace (c : Char) : Bool := c.toNat ≤ 0x20

/-- One of _UNSAFE_URL_BYTES_TO_REMOVE = "\t\r\n"; urlsplit deletes every
occurrence. -/
def isTabCrLf (c : Char) : Bool := c = '\t' || c = '\r' || c = '\n'

/-- The two input clean-ups at the top of urlsplit:
url.lstrip(_WHATWG_C0_CONTROL_OR_SPACE), then url.replace(b, "") for each
b in "\t\r\n". -/
def cleanUrl (l : List Char) : List Char :=
  (l.dropWhile isC0OrSpace).filter (fun c => !isTabCrLf c)

/-- Membership in scheme_chars =
letters, digits and "+-." (urllib.parse.scheme_chars). -/
def isSchemeChar (c : Char) : Bool :=
  c.isAlpha || c.isDigit || c = '+' || c = '-' || c = '.'

/-- The scheme test of urlsplit: url[0].isascii() and url[0].isalpha() and
every character before the colon in scheme_chars. -/
def validScheme : List Char → Bool
  | [] => false
  | c :: cs => c.isAlpha && (c :: cs).all isSchemeChar

/-- The scheme-splitting step of urlsplit: with i = url.find(':'),
if i > 0 and the prefix is a valid scheme, return
(url[:i].lower(), url[i+1:]); otherwise ('', url). -/
def splitScheme (url : List Char) : List Char × List Char :=
  let pre := url.takeWhile (fun c => c ≠ ':')
  if pre.length < url.length ∧ pre ≠ [] ∧ validScheme pre then
    (pyLower pre, url.drop (pre.length + 1))
  else ([], url)

/-- A netloc delimiter: one of "/?#" (_splitnetloc stops at the earliest). -/
def isNetlocDelim (c : Char) : Bool := c = '/' || c = '?' || c = '#'

/-- The netloc-splitting step of urlsplit: if url[:2] == "//",
_splitnetloc(url, 2) returns the part after "//" up to the first of "/?#"
and the rest (which keeps the delimiter); otherwise ('', url). -/
def splitNetloc (url : List Char) : List Char × List Char :=
  if url.take 2 = ['/', '/'] then
    let rest := url.drop 2
    let nl := rest.takeWhile (fun c => !isNetlocDelim c)
    (nl, rest.drop nl.length)
  else ([], url)

structure SplitResult where
  scheme : List Char
  netloc : List Char
  path : List Char
  query : List Char
  fragment : List Char
deriving DecidableEq

/-- urllib.parse.urlsplit(url) with default arguments (CPython 3.11);
the ValueError branches for bracketed hosts are omitted (see header). -/
def pyUrlsplit (url : List Char) : SplitResult :=
  let u0 := cleanUrl url
  let sp := splitScheme u0
  let np := splitNetloc sp.2
  let fp := split1 '#' np.2
  let qp := split1 '?' fp.1
  ⟨sp.1, np.1, qp.1, qp.2, fp.2⟩

/-- urllib.parse.uses_params. -/
def usesParams : List (List Char) :=
  [[], ("ftp".toList), ("hdl".toList), ("prospero".toList), ("http".toList),
   ("imap".toList), ("https".toList), ("shttp".toList), ("rtsp".toList),
   ("rtsps".toList), ("rtspu".toList), ("sip".toList), ("sips".toList),
   ("mms".toList), ("sftp".toList), ("tel".toList)]

/-- The last segment of url after its last '/' (empty when url ends in '/').
Helper for _splitparams' url.find(';', url.rfind('/')). -/
def lastSeg (l : List Char) : List Char :=
  (l.reverse.takeWhile (fun c => c ≠ '/')).reverse

/-- urllib.parse._splitparams: split params off the last path segment
(off the whole path when it has no '/'). -/
def splitParams (l : List Char) : List Char × List Char :=
  if '/' ∈ l then
    let seg := lastSeg l
    if ';' ∈ seg then
      let p := split1 ';' seg
      (l.take (l.length - seg.length) ++ p.1, p.2)
    else (l, [])
  else split1 ';' l

structure ParseResult where
  scheme : List Char
  netloc : List Char
  path : List Char
  params : List Char
  query : List Char
  fragment : List Char
deriving DecidableEq

/-- urllib.parse.urlparse(url) with default arguments: urlsplit, then
params split off the path when the scheme uses params and ';' occurs. -/
def pyUrlparse (url : List Char) : ParseResult :=
  let r := pyUrlsplit url
  if r.scheme ∈ usesParams ∧ ';' ∈ r.path then
    let pp := splitParams r.path
    ⟨r.scheme, r.netloc, pp.1, pp.2, r.query, r.fragment⟩
  else ⟨r.scheme, r.netloc, r.path, [], r.query, r.fragment⟩

/-! ## DistributedURLFrontier._normalize_url and _extract_domain
(src/document_processor/crawling/url_frontier.py, lines 268-301) -/

/-- The default-port stripping step: netloc[:-3] when netloc ends with ":80"
and the scheme is http, elif netloc[:-4] when it ends with ":443" and the
scheme is https. -/
def stripDefaultPort (scheme netloc : List Char) : List Char :=
  if endsWith (":80".toList) netloc ∧ scheme = ("http".toList) then
    netloc.take (netloc.length - 3)
  else if endsWith (":443".toList) netloc ∧ scheme = ("https".toList) then
    netloc.take (netloc.length - 4)
  else netloc

/-- Empty path collapses to "/" (path.rstrip("/") or "/"). -/
def orSlash (l : List Char) : List Char := if l = [] then ['/'] else l

/-- The normalized scheme: parsed.scheme.lower(). -/
def normScheme (u : List Char) : List Char := pyLower (pyUrlparse u).scheme

/-- The normalized netloc: parsed.netloc.lower() with the default port
stripped. -/
def normNetloc (u : List Char) : List Char :=
  stripDefaultPort (normScheme u) (pyLower (pyUrlparse u).netloc)

/-- The normalized path: parsed.path.rstrip("/") or "/". -/
def normPath (u : List Char) : List Char :=
  orSlash (rstripSlash (pyUrlparse u).path)

/-- "&".join(sorted(query.split("&"))). -/
def sortQuery (q : List Char) : List Char :=
  pyJoin '&' (pySorted (pySplit '&' q))

/-- The normalized query: sorted and rejoined when present, else left
empty. -/
def normQuery (u : List Char) : List Char :=
  let q := (pyUrlparse u).query
  if q = [] then q else sortQuery q

/-- DistributedURLFrontier._normalize_url: lowercase scheme and netloc,
strip default ports, collapse the empty path to "/", strip trailing
slashes, sort the query parameters, drop the fragment, and reassemble
scheme://netloc+path[?query]. -/
def normalize_url (u : List Char) : List Char :=
  normScheme u ++ (':' :: '/' :: '/' :: []) ++ normNetloc u ++ normPath u ++
    (let q := normQuery u
     if q = [] then [] else '?' :: q)

/-- DistributedURLFrontier._extract_domain: urlparse(url).netloc.lower(). -/
def extract_domain (u : List Char) : List Char :=
  pyLower (pyUrlparse u).netloc

/-! ## Redis structures as abstract data

The coordination store is modelled by its abstract contents: hashes and the
per-domain queue table as association lists, the sorted set as a list of
(member, score) pairs kept sorted by (score, member) — the order Redis ZRANGE
iterates in — the Bloom bit array as the list of set bit positions, and sets
as duplicate-free lists. -/

/-- HSET: update or append a binding. -/
def hset {α : Type} : List (List Char × α) → List Char → α → List (List Char × α)
  | [], k, v => [(k, v)]
  | (k', v') :: rest, k, v =>
    if k' = k then (k, v) :: rest else (k', v') :: hset rest k v

/-- HGET: the bound value, if any. -/
def hget {α : Type} : List (List Char × α) → List Char → Option α
  | [], _ => none
  | (k', v') :: rest, k => if k' = k then some v' else hget rest k

/-- LREM with count 1: remove the first occurrence. -/
def lrem1 : List (List Char) → List Char → List (List Char)
  | [], _ => []
  | x :: xs, u => if x = u then xs else lrem1 xs u |> (x :: ·)

/-- SADD: append when absent. -/
def sadd (s : List (List Char)) (d : List Char) : List (List Char) :=
  if d ∈ s then s else s ++ [d]

/-- ZRANGE iteration order on a sorted set: by score, ties by member. -/
def zEntryLe (a b : List Char × ℤ) : Bool :=
  decide (a.2 < b.2) || (decide (a.2 = b.2) && lexLe a.1 b.1)

/-- Remove the entry of a member from the sorted set. -/
def zRemoveKey : List (List Char × ℤ) → List Char → List (List Char × ℤ)
  | [], _ => []
  | e :: rest, u => if e.1 = u then rest else zRemoveKey rest u |> (e :: ·)

/-- Insert an entry at its (score, member) position. -/
def zInsert (e : List Char × ℤ) : List (List Char × ℤ) → List (List Char × ℤ)
  | [] => [e]
  | f :: rest => if zEntryLe e f then e :: f :: rest else f :: zInsert e rest

/-- ZADD: set the member's score (replacing any previous entry). -/
def zadd (pq : List (List Char × ℤ)) (url : List Char) (score : ℤ) :
    List (List Char × ℤ) :=
  zInsert (url, score) (zRemoveKey pq url)

/-- SETBIT 1 over a list of positions (the set of set bits grows). -/
def setbits (bits : List ℕ) : List ℕ → List ℕ
  | [] => bits
  | p :: ps => setbits (if p ∈ bits then bits else p :: bits) ps

/-! ## RedisBloomFilter (url_frontier.py, lines 69-173)

The k hash positions of an item (SHA256/MD5 double hashing, reduced mod the
bit-array size) are an abstract parameter hpos; every theorem holds for every
choice of hpos. -/

/-- RedisBloomFilter.contains: all bits at the item's positions are set. -/
def bloom_contains (hpos : List Char → List ℕ) (bits : List ℕ)
    (item : List Char) : Bool :=
  (hpos item).all (fun p => decide (p ∈ bits))

/-- RedisBloomFilter.add: report whether all bits were already set, then set
them. -/
def bloom_add (hpos : List Char → List ℕ) (bits : List ℕ) (item : List Char) :
    Bool × List ℕ :=
  (bloom_contains hpos bits item, setbits bits (hpos item))

/-! ## DistributedURLFrontier (url_frontier.py, lines 176-520)

Per-URL metadata (a free-form dict written with a 7-day TTL) is not part of
any claim and is elided.  Each frontier coroutine runs as one atomic step
here: the event loop interleaves coroutines only at await points and every
claim concerns a single call's effect. -/

structure FrontierConfig where
  default_crawl_delay : ℤ
  min_crawl_delay : ℤ
  max_crawl_delay : ℤ
deriving DecidableEq

structure FrontierState where
  bloom : List ℕ
  priority_queue : List (List Char × ℤ)
  domain_queues : List (List Char × List (List Char))
  crawl_times : List (List Char × ℤ)
  domain_delays : List (List Char × ℤ)
  active_domains : List (List Char)
  duplicate_urls_skipped : ℕ
  total_urls_added : ℕ
  total_urls_crawled : ℕ
deriving DecidableEq

/-- DistributedURLFrontier.get_domain_delay: the custom per-domain delay when
one is stored, else the default. -/
def get_domain_delay (cfg : FrontierConfig) (s : FrontierState)
    (domain : List Char) : ℤ :=
  (hget s.domain_delays domain).getD cfg.default_crawl_delay

/-- DistributedURLFrontier._can_crawl_domain: true when the domain has no
recorded last crawl, or when now - last_crawl_time >= delay. -/
def can_crawl_domain (cfg : FrontierConfig) (s : FrontierState)
    (domain : List Char) (now : ℤ) : Bool :=
  match hget s.crawl_times domain with
  | none => true
  | some last => decide (now - last ≥ get_domain_delay cfg s domain)

/-- DistributedURLFrontier.add_url (lines 303-364): normalize; unless forced,
drop Bloom-filter hits counting duplicate_urls_skipped; otherwise add to the
Bloom filter, the priority queue (score -priority), the domain queue and the
active-domain set. -/
def add_url (hpos : List Char → List ℕ) (cfg : FrontierConfig)
    (s : FrontierState) (url : List Char) (priority : ℤ) (force : Bool) :
    Bool × FrontierState :=
  let normalized := normalize_url url
  let domain := extract_domain normalized
  if ¬force ∧ bloom_contains hpos s.bloom normalized then
    (false, { s with duplicate_urls_skipped := s.duplicate_urls_skipped + 1 })
  else
    (true,
     { s with
       bloom := (bloom_add hpos s.bloom normalized).2,
       priority_queue := zadd s.priority_queue normalized (-priority),
       domain_queues :=
         hset s.domain_queues domain
           ((hget s.domain_queues domain).getD [] ++ [normalized]),
       active_domains := sadd s.active_domains domain,
       total_urls_added := s.total_urls_added + 1 })

/-- The candidate scan inside get_next_url: walk the top candidates in ZRANGE
order, skip domains already checked in this iteration, and return the first
URL whose domain passes _can_crawl_domain. -/
def find_ready (cfg : FrontierConfig) (s : FrontierState) (now : ℤ) :
    List (List Char) → List (List Char) → Option (List Char)
  | [], _ => none
  | url :: rest, checked =>
    let domain := extract_domain url
    if domain ∈ checked then find_ready cfg s now rest checked
    else if can_crawl_domain cfg s domain now then some url
    else find_ready cfg s now rest (domain :: checked)

/-- The dequeue effects of get_next_url on a ready URL: ZREM from the
priority queue, LREM 1 from the domain queue, record the crawl time
(_update_crawl_time with the current clock), count the crawl. -/
def dequeue_url (s : FrontierState) (url : List Char) (now : ℤ) :
    FrontierState :=
  let domain := extract_domain url
  { s with
    priority_queue := zRemoveKey s.priority_queue url,
    domain_queues :=
      hset s.domain_queues domain
        (lrem1 ((hget s.domain_queues domain).getD []) url),
    crawl_times := hset s.crawl_times domain now,
    total_urls_crawled := s.total_urls_crawled + 1 }

/-- DistributedURLFrontier.get_next_url (lines 387-454) with timeout = 0: the
while loop runs its body exactly once (both the empty-queue return and the
nothing-ready fall-through return None immediately when timeout = 0), so the
call is one scan of the top 100 candidates followed, on success, by the
dequeue effects. -/
def get_next_url (cfg : FrontierConfig) (s : FrontierState) (now : ℤ) :
    Option (List Char) × FrontierState :=
  let urls := (s.priority_queue.take 100).map Prod.fst
  match find_ready cfg s now urls [] with
  | some url => (some url, dequeue_url s url now)
  | none => (none, s)

/-- DistributedURLFrontier.set_domain_delay: clamp to
[min_crawl_delay, max_crawl_delay] and store. -/
def set_domain_delay (cfg : FrontierConfig) (s : FrontierState)
    (domain : List Char) (delay : ℤ) : FrontierState :=
  { s with
    domain_delays :=
      hset s.domain_delays domain
        (max cfg.min_crawl_delay (min cfg.max_crawl_delay delay)) }

/-- The frontier operations that may run between two admits (used to state
dedup monotonicity over an arbitrary later call). -/
inductive FrontierOp where
  | add (url : List Char) (priority : ℤ) (force : Bool)
  | next (now : ℤ)
  | setDelay (domain : List Char) (delay : ℤ)

def apply_op (hpos : List Char → List ℕ) (cfg : FrontierConfig) :
    FrontierOp → FrontierState → FrontierState
  | FrontierOp.add u p f, s => (add_url hpos cfg s u p f).2
  | FrontierOp.next now, s => (get_next_url cfg s now).2
  | FrontierOp.setDelay d v, s => set_domain_delay cfg s d v

def apply_ops (hpos : List Char → List ℕ) (cfg : FrontierConfig) :
    List FrontierOp → FrontierState → FrontierState
  | [], s => s
  | op :: ops, s => apply_ops hpos cfg ops (apply_op hpos cfg op s)

/-! ## CircuitBreaker (reliability/circuit_breaker.py) and
DomainCircuitBreaker / ResilientScraper (crawling/resilient_scraper.py) -/

inductive CircuitState where
  | closed
  | open'
  | half_open
deriving DecidableEq

structure CircuitBreaker where
  failure_threshold : ℕ
  recovery_timeout : ℤ
  half_open_max_calls : ℕ
  failure_count : ℕ
  success_count : ℕ
  last_failure_time : Option ℤ
  state : CircuitState
  half_open_calls : ℕ
deriving DecidableEq

/-- CircuitBreaker._on_success: reset the failure count, count the success,
and close the circuit when half-open and enough successes accumulated. -/
def on_success (b : CircuitBreaker) : CircuitBreaker :=
  let b' := { b with failure_count := 0, success_count := b.success_count + 1 }
  if b'.state = CircuitState.half_open ∧
     b'.half_open_max_calls ≤ b'.success_count then
    { b' with state := CircuitState.closed, half_open_calls := 0 }
  else b'

/-- CircuitBreaker._on_failure: count the failure, reset successes, stamp the
failure time; reopen from half-open, open from closed at the threshold. -/
def on_failure (now : ℤ) (b : CircuitBreaker) : CircuitBreaker :=
  let b' := { b with
              failure_count := b.failure_count + 1,
              success_count := 0,
              last_failure_time := some now }
  if b'.state = CircuitState.half_open then
    { b' with state := CircuitState.open' }
  else if b'.failure_threshold ≤ b'.failure_count then
    { b' with state := CircuitState.open' }
  else b'

/-- CircuitBreaker.get_state. -/
def get_state (b : CircuitBreaker) : CircuitState := b.state

/-- DomainCircuitBreaker.is_open (resilient_scraper.py, lines 197-200): just
get_state() == OPEN — it never consults the clock or recovery_timeout. -/
def is_open (b : CircuitBreaker) : Bool :=
  decide (get_state b = CircuitState.open')

inductive RequestResult where
  | success
  | timeout
  | connection_error
  | http_error
  | rate_limited
  | blocked
  | circuit_open
  | extraction_error
  | unknown_error
deriving DecidableEq

/-- The (result, status_code) pair of a ScrapeResult; the remaining fields
(content, links, timings, messages) play no part in any claim. -/
structure ScrapeOutcome where
  result : RequestResult
  status_code : Option ℤ
deriving DecidableEq

/-- The no-retry test of _fetch_with_retry: result.status_code is truthy and
below 500. -/
def status_truthy_lt500 (o : ScrapeOutcome) : Bool :=
  match o.status_code with
  | some c => decide (c ≠ 0) && decide (c < 500)
  | none => false

/-- The attempt loop of ResilientScraper._fetch_with_retry (lines 394-433),
with the outcome that _do_fetch would produce at each attempt supplied as the
function outcomes (an uncaught exception inside the try behaves exactly like
an unknown_error outcome: failure recorded, loop continues).  Backoff sleeps
only spend time and are elided; fuel is the number of remaining loop
iterations, starting at max_retries + 1. -/
def fetch_loop (outcomes : ℕ → ScrapeOutcome) (now : ℤ) :
    ℕ → ℕ → ScrapeOutcome → CircuitBreaker → ScrapeOutcome × CircuitBreaker
  | 0, _, res, b => (res, b)
  | fuel + 1, attempt, res, b =>
    if is_open b then
      ({ res with result := RequestResult.circuit_open }, b)
    else
      let r := outcomes attempt
      if r.result = RequestResult.success then (r, on_success b)
      else
        let b' := if r.result ≠ RequestResult.rate_limited then
                    on_failure now b
                  else b
        if (r.result = RequestResult.blocked ∨
            r.result = RequestResult.http_error) ∧ status_truthy_lt500 r then
          (r, b')
        else fetch_loop outcomes now fuel (attempt + 1) r b'

/-- The retry budget of the scraper; the remaining ScraperConfig fields
(timeouts, backoff delays, concurrency limits, proxy and user-agent pools,
min_content_length) configure elided I/O and extraction behaviour, which the
outcomes parameter of fetch_loop already summarizes. -/
structure ScraperConfig where
  max_retries : ℕ
deriving DecidableEq

/-- ResilientScraper._fetch_with_retry for one URL of a given domain, acting
on that domain's circuit breaker. -/
def fetch_with_retry (cfg : ScraperConfig) (outcomes : ℕ → ScrapeOutcome)
    (now : ℤ) (b : CircuitBreaker) : ScrapeOutcome × CircuitBreaker :=
  fetch_loop outcomes now (cfg.max_retries + 1) 0
    ⟨RequestResult.unknown_error, none⟩ b

/-! ## CrawlScheduler (crawling/scheduler.py) -/

structure SchedulerConfig where
  queue_high_watermark : ℕ
  queue_low_watermark : ℕ
deriving DecidableEq

/-- CrawlScheduler._check_backpressure (lines 427-439) acting on the
(_backpressure_active, backpressure_events) state: returns (apply?, new
flag, new event count).  The main loop sleeps backpressure_delay and skips
the tick exactly when the returned Bool is true. -/
def check_backpressure (cfg : SchedulerConfig) (active : Bool) (events : ℕ)
    (queue_size : ℕ) : Bool × Bool × ℕ :=
  if cfg.queue_high_watermark < queue_size then
    if active then (true, true, events) else (true, true, events + 1)
  else if queue_size < cfg.queue_low_watermark then (false, false, events)
  else (false, active, events)

/-- The per-domain state tracked by the scheduler (scheduler.py,
lines 66-91). -/
structure DomainState where
  domain : List Char
  last_crawl_time : ℤ
  crawl_delay : ℤ
  total_requests : ℕ
  successful_requests : ℕ
  failed_requests : ℕ
  total_response_time : ℤ
  last_status_code : ℤ
  consecutive_errors : ℕ
  is_blocked : Bool
  blocked_until : Option ℤ
deriving DecidableEq

/-- The blocked-host branch at the top of CrawlScheduler._worker
(lines 287-294): when the domain is blocked and blocked_until is truthy and
still in the future, the worker calls frontier.add_url(url, priority=-100)
— with force left at its default False — and returns; some gives the
frontier state after that call, none means the branch is not taken and the
worker proceeds (unblocking first when the block has lapsed). -/
def worker_blocked_step (hpos : List Char → List ℕ) (cfg : FrontierConfig)
    (ds : DomainState) (fs : FrontierState) (url : List Char) (now : ℤ) :
    Option FrontierState :=
  if ds.is_blocked then
    match ds.blocked_until with
    | some t =>
      if t ≠ 0 ∧ now < t then some ((add_url hpos cfg fs url (-100) false).2)
      else none
    | none => none
  else none

/-! ## BloomFilterConfig sizing (url_frontier.py, lines 48-66)

math.log over Python floats is modelled over ℝ; Python's int() truncation
toward zero is explicit. -/

/-- Python int() on a real value: truncation toward zero. -/
noncomputable def pyInt (x : ℝ) : ℤ := if 0 ≤ x then ⌊x⌋ else ⌈x⌉

structure BloomFilterConfig where
  expected_items : ℕ
  false_positive_rate : ℝ

/-- BloomFilterConfig.optimal_size:
int(-n * log(p) / (log 2)^2). -/
noncomputable def optimal_size (c : BloomFilterConfig) : ℤ :=
  pyInt (-(c.expected_items : ℝ) * Real.log c.false_positive_rate /
    (Real.log 2) ^ 2)

/-- BloomFilterConfig.optimal_hash_count:
max(1, int((m / n) * log 2)) with m = optimal_size. -/
noncomputable def optimal_hash_count (c : BloomFilterConfig) : ℤ :=
  max 1 (pyInt ((optimal_size c : ℝ) / (c.expected_items : ℝ) * Real.log 2))

/-! ## Concrete fixtures for witnesses -/

/-- A concrete hash-position function: every key hashes to bit 0. -/
def sample_hpos : List Char → List ℕ := fun _ => [0]

/-- default_crawl_delay 1, min 1, max 30 (integral versions of the
defaults). -/
def sample_cfg : FrontierConfig := ⟨1, 1, 30⟩

/-- An already-normalized sample URL. -/
def url_ab : List Char := ("http://a/b".toList)

/-- Its domain. -/
def dom_a : List Char := ("a".toList)

/-- One queued URL for domain a, last crawled at t = 2. -/
def state_ready : FrontierState :=
  ⟨[], [(url_ab, 0)], [(dom_a, [url_ab])], [(dom_a, 2)], [], [dom_a], 0, 1, 0⟩

/-- One queued URL for domain a, last crawled at t = 5 (delay not yet
elapsed at t = 5). -/
def state_waiting : FrontierState :=
  ⟨[], [(url_ab, 0)], [(dom_a, [url_ab])], [(dom_a, 5)], [], [dom_a], 0, 1, 0⟩

/-- The empty frontier. -/
def state_empty : FrontierState := ⟨[], [], [], [], [], [], 0, 0, 0⟩

/-- A frontier whose Bloom filter has bit 0 set (under sample_hpos it
matches every key). -/
def state_seen : FrontierState := ⟨[0], [], [], [], [], [], 0, 1, 0⟩

/-- Domain a blocked until t = 10. -/
def sample_ds_blocked : DomainState :=
  ⟨dom_a, 0, 1, 0, 0, 0, 0, 0, 0, true, some 10⟩

/-- An Open breaker whose last failure is at t = 0 (5 failures recorded,
threshold 5, recovery timeout 60). -/
def sample_breaker_open : CircuitBreaker :=
  ⟨5, 60, 3, 5, 0, some 0, CircuitState.open', 0⟩

/-- A fresh Closed breaker. -/
def sample_breaker_closed : CircuitBreaker :=
  ⟨5, 60, 3, 0, 0, none, CircuitState.closed, 0⟩

/-- Every attempt answers 200 with good content. -/
def outcomes_ok : ℕ → ScrapeOutcome :=
  fun _ => ⟨RequestResult.success, some 200⟩

/-- Every attempt answers 200 but extraction fails (content too short). -/
def outcomes_extraction : ℕ → ScrapeOutcome :=
  fun _ => ⟨RequestResult.extraction_error, some 200⟩

/-- The default watermarks: high 10000, low 1000. -/
def sample_sched_cfg : SchedulerConfig := ⟨10000, 1000⟩

/-! # Theorems

Shared helper lemmas first, then one theorem per claim (with a witness when
the theorem has hypotheses). -/

/-! ## Association-list and set-bit lemmas -/

theorem hget_hset_self {α : Type} (h : List (List Char × α)) (k : List Char)
    (v : α) : hget (hset h k v) k = some v := by
  induction h with
  | nil => simp [hset, hget]
  | cons e rest ih =>
    obtain ⟨k', v'⟩ := e
    by_cases hk : k' = k
    · simp [hset, hget, hk]
    · simp [hset, hget, hk, ih]

theorem mem_setbits_of_mem_bits (ps : List ℕ) (bits : List ℕ) (p : ℕ)
    (h : p ∈ bits) : p ∈ setbits bits ps := by
  induction ps generalizing bits with
  | nil => exact h
  | cons q qs ih =>
    by_cases hq : q ∈ bits
    · simpa [setbits, hq] using ih bits h
    · simpa [setbits, hq] using ih (q :: bits) (List.mem_cons_of_mem _ h)

theorem mem_setbits_of_mem_ps (ps : List ℕ) (bits : List ℕ) (p : ℕ)
    (h : p ∈ ps) : p ∈ setbits bits ps := by
  induction ps generalizing bits with
  | nil => cases h
  | cons q qs ih =>
    rcases List.mem_cons.mp h with hq | hq
    · subst hq
      by_cases hb : p ∈ bits
      · simpa [setbits, hb] using mem_setbits_of_mem_bits qs bits p hb
      · simpa [setbits, hb] using
          mem_setbits_of_mem_bits qs (p :: bits) p (by simp)
    · by_cases hb : q ∈ bits <;> simpa [setbits, hb] using ih _ hq

theorem setbits_of_subset (ps : List ℕ) (bits : List ℕ)
    (h : ∀ p ∈ ps, p ∈ bits) : setbits bits ps = bits := by
  induction ps with
  | nil => rfl
  | cons q qs ih =>
    have hq : q ∈ bits := h q (by simp)
    simp only [setbits, hq, if_pos]
    exact ih fun p hp => h p (List.mem_cons_of_mem _ hp)

/-! ## Bloom-filter lemmas -/

theorem bloom_contains_setbits (hpos : List Char → List ℕ) (bits ps : List ℕ)
    (u : List Char) (h : bloom_contains hpos bits u = true) :
    bloom_contains hpos (setbits bits ps) u = true := by
  simp only [bloom_contains, List.all_eq_true, decide_eq_true_eq] at h ⊢
  exact fun p hp => mem_setbits_of_mem_bits ps bits p (h p hp)

theorem bloom_contains_after_setbits (hpos : List Char → List ℕ)
    (bits : List ℕ) (u : List Char) :
    bloom_contains hpos (setbits bits (hpos u)) u = true := by
  simp only [bloom_contains, List.all_eq_true, decide_eq_true_eq]
  exact fun p hp => mem_setbits_of_mem_ps (hpos u) bits p hp

/-! ## add_url lemmas -/

theorem add_url_of_seen (hpos : List Char → List ℕ) (cfg : FrontierConfig)
    (s : FrontierState) (url : List Char) (priority : ℤ)
    (h : bloom_contains hpos s.bloom (normalize_url url) = true) :
    add_url hpos cfg s url priority false =
      (false,
       { s with duplicate_urls_skipped := s.duplicate_urls_skipped + 1 }) := by
  simp [add_url, h]

theorem add_url_true_bloom (hpos : List Char → List ℕ) (cfg : FrontierConfig)
    (s s₁ : FrontierState) (url : List Char) (priority : ℤ) (force : Bool)
    (h : add_url hpos cfg s url priority force = (true, s₁)) :
    bloom_contains hpos s₁.bloom (normalize_url url) = true := by
  simp only [add_url] at h
  split at h
  · exact absurd h (by simp)
  · rw [Prod.mk.injEq] at h
    obtain ⟨-, h2⟩ := h
    subst h2
    exact bloom_contains_after_setbits hpos s.bloom (normalize_url url)

theorem bloom_mono_apply_op (hpos : List Char → List ℕ) (cfg : FrontierConfig)
    (op : FrontierOp) (s : FrontierState) (u : List Char)
    (h : bloom_contains hpos s.bloom u = true) :
    bloom_contains hpos (apply_op hpos cfg op s).bloom u = true := by
  cases op with
  | add url priority force =>
    show bloom_contains hpos ((add_url hpos cfg s url priority force).2).bloom
        u = true
    simp only [add_url]
    split
    · simpa using h
    · exact bloom_contains_setbits hpos s.bloom (hpos (normalize_url url)) u h
  | next now =>
    show bloom_contains hpos ((get_next_url cfg s now).2).bloom u = true
    simp only [get_next_url]
    cases hfr : find_ready cfg s now
        ((s.priority_queue.take 100).map Prod.fst) [] with
    | none => exact h
    | some url => simpa [dequeue_url] using h
  | setDelay d v => simpa [apply_op, set_domain_delay] using h

theorem bloom_mono_apply_ops (hpos : List Char → List ℕ)
    (cfg : FrontierConfig) (ops : List FrontierOp) (s : FrontierState)
    (u : List Char) (h : bloom_contains hpos s.bloom u = true) :
    bloom_contains hpos (apply_ops hpos cfg ops s).bloom u = true := by
  induction ops generalizing s with
  | nil => exact h
  | cons op ops ih =>
    exact ih _ (bloom_mono_apply_op hpos cfg op s u h)

/-! ## get_next_url lemmas -/

theorem find_ready_can_crawl (cfg : FrontierConfig) (s : FrontierState)
    (now : ℤ) :
    ∀ (urls checked : List (List Char)) (url : List Char),
      find_ready cfg s now urls checked = some url →
      can_crawl_domain cfg s (extract_domain url) now = true := by
  intro urls
  induction urls with
  | nil => intro checked url h; simp [find_ready] at h
  | cons u rest ih =>
    intro checked url h
    unfold find_ready at h
    by_cases h1 : extract_domain u ∈ checked
    · rw [if_pos h1] at h
      exact ih _ _ h
    · rw [if_neg h1] at h
      cases hc : can_crawl_domain cfg s (extract_domain u) now with
      | true =>
        simp only [hc, if_true] at h
        cases h
        exact hc
      | false =>
        simp only [hc, Bool.false_eq_true, if_false] at h
        exact ih _ _ h

theorem find_ready_none (cfg : FrontierConfig) (s : FrontierState) (now : ℤ)
    (urls : List (List Char))
    (h : ∀ u ∈ urls, can_crawl_domain cfg s (extract_domain u) now = false) :
    ∀ checked, find_ready cfg s now urls checked = none := by
  induction urls with
  | nil => intro checked; rfl
  | cons u rest ih =>
    intro checked
    have hu : can_crawl_domain cfg s (extract_domain u) now = false :=
      h u (by simp)
    have hrest := ih fun v hv => h v (List.mem_cons_of_mem _ hv)
    unfold find_ready
    by_cases h1 : extract_domain u ∈ checked
    · rw [if_pos h1]; exact hrest checked
    · rw [if_neg h1]
      simp only [hu, Bool.false_eq_true, if_false]
      exact hrest _

/-! ## C1 — politeness of get_next_url -/

/-- Claim C1 (confirmed): whenever get_next_url returns a URL, its domain
either has no recorded last crawl or satisfies
now - last_crawl_time >= delay(domain), and the domain's last crawl time is
set to the dequeue instant on return.  Two consecutive dequeues t1 < t2 of
the same domain therefore satisfy t2 - t1 >= delay (the claim's equivalent
formulation). -/
theorem get_next_url_politeness (cfg : FrontierConfig) (s : FrontierState)
    (now : ℤ) (url : List Char) (s' : FrontierState)
    (h : get_next_url cfg s now = (some url, s')) :
    (∀ last, hget s.crawl_times (extract_domain url) = some last →
       now - last ≥ get_domain_delay cfg s (extract_domain url)) ∧
    hget s'.crawl_times (extract_domain url) = some now := by
  simp only [get_next_url] at h
  cases hfr : find_ready cfg s now
      ((s.priority_queue.take 100).map Prod.fst) [] with
  | none => rw [hfr] at h; exact absurd h (by simp)
  | some u =>
    rw [hfr] at h
    rw [Prod.mk.injEq] at h
    obtain ⟨h1, h2⟩ := h
    injection h1 with h1
    subst h1
    have hc := find_ready_can_crawl cfg s now _ _ _ hfr
    constructor
    · intro last hlast
      unfold can_crawl_domain at hc
      rw [hlast] at hc
      exact of_decide_eq_true hc
    · rw [← h2]
      simp only [dequeue_url]
      exact hget_hset_self s.crawl_times (extract_domain u) now

/-! ## C10 — non-blocking dequeue with zero timeout -/

/-- Claim C10 (confirmed): when no enqueued URL's domain passes the
politeness check (in particular when the queue is empty), get_next_url with
timeout 0 returns None after its single scan and leaves the state — priority
queue, host queues, crawl times — unchanged. -/
theorem get_next_url_none_ready (cfg : FrontierConfig) (s : FrontierState)
    (now : ℤ)
    (h : ∀ e ∈ s.priority_queue,
       can_crawl_domain cfg s (extract_domain e.1) now = false) :
    get_next_url cfg s now = (none, s) := by
  have hall : ∀ u ∈ (s.priority_queue.take 100).map Prod.fst,
      can_crawl_domain cfg s (extract_domain u) now = false := by
    intro u hu
    obtain ⟨e, he, rfl⟩ := List.mem_map.mp hu
    exact h e (List.take_subset _ _ he)
  simp only [get_next_url]
  rw [find_ready_none cfg s now _ hall []]

/-! ## C5 — dedup monotonicity -/

/-- Claim C5 (confirmed): once add_url(u) has returned added=true, any later
add_url(u) with force=false — after an arbitrary sequence of further
frontier operations — returns not-added and increments
duplicate_urls_skipped, leaving every other component of the state (the
priority queue, u's host queue, the Bloom filter) unchanged. -/
theorem dedup_monotonicity (hpos : List Char → List ℕ) (cfg : FrontierConfig)
    (s₀ s₁ : FrontierState) (u : List Char) (p q : ℤ)
    (ops : List FrontierOp)
    (h : add_url hpos cfg s₀ u p false = (true, s₁)) :
    add_url hpos cfg (apply_ops hpos cfg ops s₁) u q false =
      (false,
       { apply_ops hpos cfg ops s₁ with
         duplicate_urls_skipped :=
           (apply_ops hpos cfg ops s₁).duplicate_urls_skipped + 1 }) := by
  have h1 := add_url_true_bloom hpos cfg s₀ s₁ u p false h
  have h2 := bloom_mono_apply_ops hpos cfg ops s₁ (normalize_url u) h1
  exact add_url_of_seen hpos cfg _ u q h2

/-! ## C9 — frame property of forced admit -/

/-- Claim C9 (confirmed): a forced add_url of a URL that the Bloom filter
already matches skips the membership gate (it reports added=true, never the
duplicate path) and leaves the Bloom bit array unchanged — bloom.add sets
only bits that are already set. -/
theorem add_url_force_bloom_frame (hpos : List Char → List ℕ)
    (cfg : FrontierConfig) (s : FrontierState) (u : List Char) (priority : ℤ)
    (h : bloom_contains hpos s.bloom (normalize_url u) = true) :
    (add_url hpos cfg s u priority true).1 = true ∧
    (add_url hpos cfg s u priority true).2.bloom = s.bloom := by
  have hsub : setbits s.bloom (hpos (normalize_url u)) = s.bloom := by
    apply setbits_of_subset
    simp only [bloom_contains, List.all_eq_true, decide_eq_true_eq] at h
    exact h
  constructor
  · simp [add_url]
  · simp [add_url, bloom_add, hsub]

/-! ## C3 — blocked-host re-admission (code bug) -/

/-- Claim C3 (code bug): the blocked-host branch of CrawlScheduler._worker
calls frontier.add_url(url, priority=-100) without force=True, so for any
URL the frontier has seen (every URL a worker receives was admitted, hence
is in the Bloom filter) the re-admission is rejected as a duplicate: the
frontier state is unchanged except duplicate_urls_skipped, and the URL is in
neither the priority queue nor its host queue afterwards — it is dropped,
not re-admitted as the claim (and the code's own "Re-queue with low
priority" comment) states. -/
theorem worker_blocked_step_drops (hpos : List Char → List ℕ)
    (cfg : FrontierConfig) (ds : DomainState) (fs : FrontierState)
    (url : List Char) (now t : ℤ)
    (hb : ds.is_blocked = true) (hbu : ds.blocked_until = some t)
    (ht : t ≠ 0) (hlt : now < t)
    (hseen : bloom_contains hpos fs.bloom (normalize_url url) = true) :
    worker_blocked_step hpos cfg ds fs url now =
      some { fs with
             duplicate_urls_skipped := fs.duplicate_urls_skipped + 1 } := by
  simp only [worker_blocked_step, hb, hbu, if_true]
  rw [if_pos ⟨ht, hlt⟩]
  rw [add_url_of_seen hpos cfg fs url (-100) hseen]

/-! ## C7 — backpressure hysteresis (corrected) -/

/-- Claim C7 counterexample: with the default watermarks (high 10000,
low 1000), a first check at depth 10001 activates backpressure (flag set,
one event counted), yet the next check at depth 5000 — far above the low
watermark — already returns false, so the main loop resumes admitting work
without the depth ever dropping below low_watermark. -/
theorem check_backpressure_no_hysteresis :
    check_backpressure ⟨10000, 1000⟩ false 0 10001 = (true, true, 1) ∧
    (check_backpressure ⟨10000, 1000⟩ true 1 5000).1 = false ∧
    ¬(5000 < (⟨10000, 1000⟩ : SchedulerConfig).queue_low_watermark) := by
  decide

/-- Claim C7 as amended (the code's actual hysteresis): while the
backpressure flag is active and the depth lies in
[low_watermark, high_watermark], _check_backpressure returns false — the
scheduler resumes normal flow as soon as depth <= high_watermark — while the
flag stays set and no further event is counted; only the flag (and thus the
once-per-episode event counter) waits for depth < low_watermark. -/
theorem check_backpressure_resumes_at_high (cfg : SchedulerConfig)
    (events queue_size : ℕ)
    (h1 : cfg.queue_low_watermark ≤ queue_size)
    (h2 : queue_size ≤ cfg.queue_high_watermark) :
    check_backpressure cfg true events queue_size = (false, true, events) := by
  unfold check_backpressure
  rw [if_neg (by omega), if_neg (by omega)]

/-! ## C4 — extraction errors and the breaker (corrected) -/

/-- Claim C4 counterexample: a single fetch attempt (max_retries = 0) whose
_do_fetch outcome is extraction_error (HTTP 200, content too short) leaves
the domain breaker with failure_count 1 — the attempt did increment the
consecutive-failure count, contrary to the claim. -/
theorem extraction_error_increments_breaker :
    ((fetch_with_retry ⟨0⟩
        (fun _ => ⟨RequestResult.extraction_error, some 200⟩) 10
        ⟨5, 60, 3, 0, 0, none, CircuitState.closed, 0⟩).2.failure_count = 1)
    ∧ (⟨5, 60, 3, 0, 0, none, CircuitState.closed, 0⟩ :
        CircuitBreaker).failure_count = 0 := by
  decide

/-- Claim C4 as amended: an attempt whose outcome is extraction_error is
recorded as a circuit-breaker failure — _fetch_with_retry exempts only
rate_limited outcomes from _on_failure — and the attempt does not retry-exit
early, so the loop continues with the failure counted: the breaker's
failure_count grows by exactly 1 for that attempt. -/
theorem extraction_error_is_breaker_failure (outcomes : ℕ → ScrapeOutcome)
    (now : ℤ) (fuel attempt : ℕ) (res : ScrapeOutcome) (b : CircuitBreaker)
    (hopen : is_open b = false)
    (hext : (outcomes attempt).result = RequestResult.extraction_error) :
    fetch_loop outcomes now (fuel + 1) attempt res b =
      fetch_loop outcomes now fuel (attempt + 1) (outcomes attempt)
        (on_failure now b) ∧
    (on_failure now b).failure_count = b.failure_count + 1 := by
  constructor
  · simp only [fetch_loop, hopen, hext]
    simp
  · simp only [on_failure]
    split
    · rfl
    · split <;> rfl

/-! ## C2 — circuit-breaker recovery (code bug) -/

/-- Claim C2 (code bug): with a domain's breaker Open and the recovery
timeout elapsed since the last recorded failure, _fetch_with_retry still
returns circuit_open at once — whatever the server would answer — and the
breaker is returned unchanged, still Open: DomainCircuitBreaker.is_open
tests only state == OPEN, and the OPEN→HALF_OPEN transition lives solely in
CircuitBreaker.call, which the scraper never invokes, so no probe is ever
issued and no success can close the breaker. -/
theorem open_breaker_never_probes (cfg : ScraperConfig)
    (outcomes : ℕ → ScrapeOutcome) (now t : ℤ) (b : CircuitBreaker)
    (hopen : b.state = CircuitState.open')
    (hlast : b.last_failure_time = some t)
    (helapsed : now - t > b.recovery_timeout) :
    fetch_with_retry cfg outcomes now b =
      (⟨RequestResult.circuit_open, none⟩, b) := by
  have ho : is_open b = true := by simp [is_open, get_state, hopen]
  simp only [fetch_with_retry, fetch_loop, ho]
  rfl

/-! ## Witnesses -/

/-- Witness for C1 at a concrete dequeue: domain a was last crawled at t = 2
with delay 1; at t = 5 the URL is handed out and the crawl time becomes 5. -/
theorem get_next_url_politeness_witness :
    get_next_url sample_cfg state_ready 5 =
      (some url_ab, (get_next_url sample_cfg state_ready 5).2) ∧
    ((∀ last, hget state_ready.crawl_times (extract_domain url_ab) =
        some last →
        5 - last ≥ get_domain_delay sample_cfg state_ready
          (extract_domain url_ab)) ∧
     hget ((get_next_url sample_cfg state_ready 5).2).crawl_times
        (extract_domain url_ab) = some 5) :=
  ⟨by decide,
   get_next_url_politeness sample_cfg state_ready 5 url_ab
     ((get_next_url sample_cfg state_ready 5).2) (by decide)⟩

/-- Witness for C10 at a concrete state: domain a crawled at t = 5 with
delay 1, so at t = 5 nothing is ready and the state is returned unchanged. -/
theorem get_next_url_none_ready_witness :
    (∀ e ∈ state_waiting.priority_queue,
       can_crawl_domain sample_cfg state_waiting (extract_domain e.1) 5 =
         false) ∧
    get_next_url sample_cfg state_waiting 5 = (none, state_waiting) :=
  ⟨by decide, get_next_url_none_ready sample_cfg state_waiting 5 (by decide)⟩

/-- Witness for C5: admit url_ab into the empty frontier, dequeue it, then
admit it again — the second admit is rejected and only
duplicate_urls_skipped changes. -/
theorem dedup_monotonicity_witness :
    add_url sample_hpos sample_cfg state_empty url_ab 0 false =
      (true, (add_url sample_hpos sample_cfg state_empty url_ab 0 false).2) ∧
    add_url sample_hpos sample_cfg
        (apply_ops sample_hpos sample_cfg [FrontierOp.next 10]
          (add_url sample_hpos sample_cfg state_empty url_ab 0 false).2)
        url_ab 7 false =
      (false,
       { apply_ops sample_hpos sample_cfg [FrontierOp.next 10]
           (add_url sample_hpos sample_cfg state_empty url_ab 0 false).2 with
         duplicate_urls_skipped :=
           (apply_ops sample_hpos sample_cfg [FrontierOp.next 10]
             (add_url sample_hpos sample_cfg state_empty url_ab 0
               false).2).duplicate_urls_skipped + 1 }) :=
  ⟨by decide,
   dedup_monotonicity sample_hpos sample_cfg state_empty
     ((add_url sample_hpos sample_cfg state_empty url_ab 0 false).2) url_ab
     0 7 [FrontierOp.next 10] (by decide)⟩

/-- Witness for C9: a forced admit of a URL the Bloom filter already matches
reports added and leaves the bit array unchanged. -/
theorem add_url_force_bloom_frame_witness :
    bloom_contains sample_hpos state_seen.bloom (normalize_url url_ab) =
      true ∧
    ((add_url sample_hpos sample_cfg state_seen url_ab 3 true).1 = true ∧
     (add_url sample_hpos sample_cfg state_seen url_ab 3 true).2.bloom =
       state_seen.bloom) :=
  ⟨by decide,
   add_url_force_bloom_frame sample_hpos sample_cfg state_seen url_ab 3
     (by decide)⟩

/-- Witness for C3 at a concrete worker step: domain a blocked until t = 10,
now = 5, URL already in the Bloom filter — the re-admission is dropped as a
duplicate. -/
theorem worker_blocked_step_drops_witness :
    (sample_ds_blocked.is_blocked = true ∧
     sample_ds_blocked.blocked_until = some 10 ∧
     bloom_contains sample_hpos state_seen.bloom (normalize_url url_ab) =
       true) ∧
    worker_blocked_step sample_hpos sample_cfg sample_ds_blocked state_seen
        url_ab 5 =
      some { state_seen with
             duplicate_urls_skipped :=
               state_seen.duplicate_urls_skipped + 1 } :=
  ⟨⟨by decide, by decide, by decide⟩,
   worker_blocked_step_drops sample_hpos sample_cfg sample_ds_blocked
     state_seen url_ab 5 10 (by decide) (by decide) (by decide) (by decide)
     (by decide)⟩

/-- Witness for the amended C7: flag active, depth 5000 between the
watermarks — the check returns false (work is admitted) with the flag still
set. -/
theorem check_backpressure_resumes_at_high_witness :
    (sample_sched_cfg.queue_low_watermark ≤ 5000 ∧
     5000 ≤ sample_sched_cfg.queue_high_watermark) ∧
    check_backpressure sample_sched_cfg true 3 5000 = (false, true, 3) :=
  ⟨⟨by decide, by decide⟩,
   check_backpressure_resumes_at_high sample_sched_cfg 3 5000 (by decide)
     (by decide)⟩

/-- Witness for the amended C4: a closed breaker and an extraction_error
attempt — the loop records the failure and continues, with failure_count
incremented from 0 to 1. -/
theorem extraction_error_is_breaker_failure_witness :
    (is_open sample_breaker_closed = false ∧
     (outcomes_extraction 0).result = RequestResult.extraction_error) ∧
    (fetch_loop outcomes_extraction 10 (0 + 1) 0
        ⟨RequestResult.unknown_error, none⟩ sample_breaker_closed =
      fetch_loop outcomes_extraction 10 0 (0 + 1) (outcomes_extraction 0)
        (on_failure 10 sample_breaker_closed) ∧
     (on_failure 10 sample_breaker_closed).failure_count =
       sample_breaker_closed.failure_count + 1) :=
  ⟨⟨by decide, by decide⟩,
   extraction_error_is_breaker_failure outcomes_extraction 10 0 0
     ⟨RequestResult.unknown_error, none⟩ sample_breaker_closed (by decide)
     (by decide)⟩

/-- Witness for C2: breaker Open since t = 0, recovery timeout 60, fetch at
t = 100 against a healthy server — the scraper still returns circuit_open
and the breaker stays Open. -/
theorem open_breaker_never_probes_witness :
    (sample_breaker_open.state = CircuitState.open' ∧
     sample_breaker_open.last_failure_time = some 0 ∧
     (100 : ℤ) - 0 > sample_breaker_open.recovery_timeout) ∧
    fetch_with_retry ⟨3⟩ outcomes_ok 100 sample_breaker_open =
      (⟨RequestResult.circuit_open, none⟩, sample_breaker_open) :=
  ⟨⟨by decide, by decide, by decide⟩,
   open_breaker_never_probes ⟨3⟩ outcomes_ok 100 0 sample_breaker_open
     (by decide) (by decide) (by decide)⟩

/-! ## C8 — Bloom filter sizing (corrected) -/

/-- Claim C8 counterexample: for expected_items 1 and false-positive rate
1/2 the real-valued size formula gives 1/ln 2 ≈ 1.44, whose ceiling — the
value the claim states — is 2, while optimal_size (Python int(), which
truncates) returns 1. -/
theorem bloom_sizing_not_ceiling :
    optimal_size ⟨1, 1 / 2⟩ = 1 ∧
    ⌈(-(1 : ℝ)) * Real.log ((1 : ℝ) / 2) / (Real.log 2) ^ 2⌉ = 2 := by
  have hlog2 : 0 < Real.log 2 := Real.log_pos one_lt_two
  have hub : Real.log 2 < 0.6931471808 := Real.log_two_lt_d9
  have hlb : 0.6931471803 < Real.log 2 := Real.log_two_gt_d9
  have hL : Real.log ((1 : ℝ) / 2) = -Real.log 2 := by
    rw [one_div, Real.log_inv]
  have hE : (-(1 : ℝ)) * Real.log ((1 : ℝ) / 2) / (Real.log 2) ^ 2 =
      1 / Real.log 2 := by
    rw [hL]
    field_simp
    ring
  have h1 : (1 : ℝ) < 1 / Real.log 2 := by
    rw [lt_div_iff₀ hlog2]
    nlinarith
  have h2 : 1 / Real.log 2 < 2 := by
    rw [div_lt_iff₀ hlog2]
    nlinarith
  constructor
  · have hcalc : optimal_size ⟨1, 1 / 2⟩ =
        pyInt ((-(1 : ℝ)) * Real.log ((1 : ℝ) / 2) / (Real.log 2) ^ 2) := by
      simp [optimal_size]
    rw [hcalc, hE, pyInt, if_pos (by linarith)]
    rw [Int.floor_eq_iff]
    constructor
    · push_cast
      linarith
    · push_cast
      linarith
  · rw [hE, Int.ceil_eq_iff]
    constructor
    · push_cast
      linarith
    · push_cast
      linarith

/-- Claim C8 as amended: under n > 0 and 0 < p < 1, the computed bit-array
size is the FLOOR (Python int() truncation) of -n·ln(p)/(ln 2)², not its
ceiling, and the computed hash count is max(1, ⌊(m/n)·ln 2⌋) with the
truncated m — int() truncation, not rounding to nearest. -/
theorem bloom_sizing_truncates (c : BloomFilterConfig)
    (hn : 0 < c.expected_items) (hp0 : 0 < c.false_positive_rate)
    (hp1 : c.false_positive_rate < 1) :
    optimal_size c =
      ⌊-(c.expected_items : ℝ) * Real.log c.false_positive_rate /
        (Real.log 2) ^ 2⌋ ∧
    optimal_hash_count c =
      max 1 ⌊(optimal_size c : ℝ) / (c.expected_items : ℝ) * Real.log 2⌋ := by
  have hlog2 : 0 < Real.log 2 := Real.log_pos one_lt_two
  have hlogp : Real.log c.false_positive_rate < 0 := Real.log_neg hp0 hp1
  have hnpos : (0 : ℝ) < (c.expected_items : ℝ) := by exact_mod_cast hn
  have hE : 0 ≤ -(c.expected_items : ℝ) * Real.log c.false_positive_rate /
      (Real.log 2) ^ 2 := by
    apply div_nonneg
    · nlinarith
    · positivity
  have hsize : optimal_size c =
      ⌊-(c.expected_items : ℝ) * Real.log c.false_positive_rate /
        (Real.log 2) ^ 2⌋ := by
    rw [optimal_size, pyInt, if_pos hE]
  refine ⟨hsize, ?_⟩
  have hm : (0 : ℝ) ≤ (optimal_size c : ℝ) := by
    have : (0 : ℤ) ≤ optimal_size c := by
      rw [hsize]
      exact Int.floor_nonneg.mpr hE
    exact_mod_cast this
  have hk : 0 ≤ (optimal_size c : ℝ) / (c.expected_items : ℝ) *
      Real.log 2 :=
    mul_nonneg (div_nonneg hm (le_of_lt hnpos)) (le_of_lt hlog2)
  rw [optimal_hash_count, pyInt, if_pos hk]

/-- Witness for the amended C8 at expected_items 1, false-positive rate 1/2:
the hypotheses 0 < n, 0 < p < 1 hold and the truncating characterization
applies. -/
theorem bloom_sizing_truncates_witness :
    (0 < (⟨1, 1 / 2⟩ : BloomFilterConfig).expected_items ∧
     (0 : ℝ) < (⟨1, 1 / 2⟩ : BloomFilterConfig).false_positive_rate ∧
     (⟨1, 1 / 2⟩ : BloomFilterConfig).false_positive_rate < 1) ∧
    (optimal_size ⟨1, 1 / 2⟩ =
      ⌊-((⟨1, 1 / 2⟩ : BloomFilterConfig).expected_items : ℝ) *
        Real.log (⟨1, 1 / 2⟩ : BloomFilterConfig).false_positive_rate /
        (Real.log 2) ^ 2⌋ ∧
     optimal_hash_count ⟨1, 1 / 2⟩ =
      max 1 ⌊(optimal_size ⟨1, 1 / 2⟩ : ℝ) /
        ((⟨1, 1 / 2⟩ : BloomFilterConfig).expected_items : ℝ) *
        Real.log 2⌋) :=
  ⟨⟨Nat.one_pos, one_half_pos, one_half_lt_one⟩,
   bloom_sizing_truncates ⟨1, 1 / 2⟩ Nat.one_pos one_half_pos
     one_half_lt_one⟩

/-! ## Character lemmas for URL normalization -/

theorem char_toNat_inj {c d : Char} (h : c.toNat = d.toNat) : c = d := by
  apply Char.ext
  exact UInt32.toNat.inj h

theorem char_toNat_ofNat {n : ℕ} (h : n < 55296) : (Char.ofNat n).toNat = n := by
  have hv : n.isValidChar := Or.inl h
  rw [Char.ofNat, dif_pos hv]
  simp [Char.ofNatAux, Char.toNat, UInt32.toNat]

theorem char_isUpper_iff (c : Char) :
    c.isUpper = true ↔ 65 ≤ c.toNat ∧ c.toNat ≤ 90 := by
  simp only [Char.isUpper, Bool.and_eq_true, decide_eq_true_eq]
  exact Iff.rfl

theorem char_isLower_iff (c : Char) :
    c.isLower = true ↔ 97 ≤ c.toNat ∧ c.toNat ≤ 122 := by
  simp only [Char.isLower, Bool.and_eq_true, decide_eq_true_eq]
  exact Iff.rfl

theorem char_isAlpha_iff (c : Char) :
    c.isAlpha = true ↔
      (65 ≤ c.toNat ∧ c.toNat ≤ 90) ∨ (97 ≤ c.toNat ∧ c.toNat ≤ 122) := by
  simp only [Char.isAlpha, Bool.or_eq_true, char_isUpper_iff, char_isLower_iff]

theorem char_toLower_toNat (c : Char) :
    (Char.toLower c).toNat =
      if 65 ≤ c.toNat ∧ c.toNat ≤ 90 then c.toNat + 32 else c.toNat := by
  simp only [Char.toLower]
  by_cases h : 65 ≤ c.toNat ∧ c.toNat ≤ 90
  · rw [if_pos h, if_pos h]
    exact char_toNat_ofNat (by omega)
  · rw [if_neg h, if_neg h]

theorem char_toLower_eq_self {c : Char}
    (h : ¬(65 ≤ c.toNat ∧ c.toNat ≤ 90)) : Char.toLower c = c := by
  simp only [Char.toLower]
  rw [if_neg h]

theorem char_toLower_cases (c : Char) :
    Char.toLower c = c ∨
      (97 ≤ (Char.toLower c).toNat ∧ (Char.toLower c).toNat ≤ 122) := by
  by_cases h : 65 ≤ c.toNat ∧ c.toNat ≤ 90
  · right
    rw [char_toLower_toNat, if_pos h]
    omega
  · left
    exact char_toLower_eq_self h

theorem char_toLower_toLower (c : Char) :
    Char.toLower (Char.toLower c) = Char.toLower c := by
  by_cases h : 65 ≤ c.toNat ∧ c.toNat ≤ 90
  · apply char_toLower_eq_self
    rw [char_toLower_toNat, if_pos h]
    omega
  · simp only [char_toLower_eq_self h]

/-- toLower maps a character to a character outside the lowercase-letter
range only identically; so any equation toLower c = d with d not a
lowercase letter forces c = d. -/
theorem char_toLower_eq_special {c d : Char}
    (hd : ¬(97 ≤ d.toNat ∧ d.toNat ≤ 122)) (h : Char.toLower c = d) :
    c = d := by
  rcases char_toLower_cases c with h' | h'
  · rw [← h', h]
  · rw [h] at h'
    exact absurd h' hd

theorem char_isAlpha_toLower {c : Char} (h : c.isAlpha = true) :
    (Char.toLower c).isAlpha = true := by
  rcases char_toLower_cases c with h' | h'
  · rw [h']; exact h
  · rw [char_isAlpha_iff]
    right
    exact h'

theorem isSchemeChar_toLower {c : Char} (h : isSchemeChar c = true) :
    isSchemeChar (Char.toLower c) = true := by
  rcases char_toLower_cases c with h' | h'
  · rw [h']; exact h
  · have ha : (Char.toLower c).isAlpha = true := by
      rw [char_isAlpha_iff]; right; exact h'
    simp [isSchemeChar, ha]

theorem isSchemeChar_ne_colon {c : Char} (h : isSchemeChar c = true) :
    c ≠ ':' := by
  intro he
  rw [he] at h
  exact absurd h (by decide)

theorem isTabCrLf_false_of_isSchemeChar {c : Char}
    (h : isSchemeChar c = true) : isTabCrLf c = false := by
  cases hb : isTabCrLf c with
  | false => rfl
  | true =>
    exfalso
    simp only [isTabCrLf, Bool.or_eq_true, decide_eq_true_eq] at hb
    rcases hb with (hb | hb) | hb <;> (rw [hb] at h; exact absurd h (by decide))

theorem isC0OrSpace_false_of_isAlpha {c : Char} (h : c.isAlpha = true) :
    isC0OrSpace c = false := by
  rw [char_isAlpha_iff] at h
  simp only [isC0OrSpace, decide_eq_false_iff_not]
  omega

theorem isNetlocDelim_of_toLower {c : Char}
    (h : isNetlocDelim (Char.toLower c) = true) : isNetlocDelim c = true := by
  rcases char_toLower_cases c with h' | h'
  · rw [← h']; exact h
  · exfalso
    simp only [isNetlocDelim, Bool.or_eq_true, decide_eq_true_eq] at h
    rcases h with (h | h) | h <;> (rw [h] at h'; exact absurd h' (by decide))

theorem isTabCrLf_of_toLower {c : Char}
    (h : isTabCrLf (Char.toLower c) = true) : isTabCrLf c = true := by
  rcases char_toLower_cases c with h' | h'
  · rw [← h']; exact h
  · exfalso
    simp only [isTabCrLf, Bool.or_eq_true, decide_eq_true_eq] at h
    rcases h with (h | h) | h <;> (rw [h] at h'; exact absurd h' (by decide))

/-! ## List lemmas: takeWhile/drop decompositions -/

theorem takeWhile_append_stop (p : Char → Bool) (a : List Char) (d : Char)
    (b : List Char) (ha : ∀ c ∈ a, p c = true) (hd : p d = false) :
    (a ++ d :: b).takeWhile p = a := by
  induction a with
  | nil => simp [List.takeWhile_cons, hd]
  | cons x xs ih =>
    have hx := ha x (by simp)
    simp only [List.cons_append, List.takeWhile_cons, hx, if_true]
    rw [ih fun c hc => ha c (by simp [hc])]

theorem drop_append_cons (a : List Char) (d : Char) (b : List Char) :
    (a ++ d :: b).drop (a.length + 1) = b := by
  have h1 : a ++ d :: b = (a ++ [d]) ++ b := by simp
  have h2 : a.length + 1 = (a ++ [d]).length := by simp
  rw [h1, h2, List.drop_left]

/-! ## split1 lemmas -/

theorem split1_not_mem {sep : Char} {l : List Char} (h : sep ∉ l) :
    split1 sep l = (l, []) := by
  induction l with
  | nil => rfl
  | cons c cs ih =>
    have hc : c ≠ sep := by rintro rfl; exact h (by simp)
    have hcs : sep ∉ cs := fun hm => h (by simp [hm])
    simp [split1, hc, ih hcs]

theorem split1_append {sep : Char} {a b : List Char} (h : sep ∉ a) :
    split1 sep (a ++ sep :: b) = (a, b) := by
  induction a with
  | nil => simp [split1]
  | cons c cs ih =>
    have hc : c ≠ sep := by rintro rfl; exact h (by simp)
    have hcs : sep ∉ cs := fun hm => h (by simp [hm])
    simp [split1, hc, ih hcs]

theorem mem_split1_fst {sep c : Char} {l : List Char}
    (h : c ∈ (split1 sep l).1) : c ∈ l := by
  induction l with
  | nil => simpa [split1] using h
  | cons d ds ih =>
    by_cases hd : d = sep
    · simp [split1, hd] at h
    · simp only [split1, hd, if_false, ite_false] at h
      rcases List.mem_cons.mp h with rfl | h
      · simp
      · exact List.mem_cons_of_mem _ (ih h)

theorem mem_split1_snd {sep c : Char} {l : List Char}
    (h : c ∈ (split1 sep l).2) : c ∈ l := by
  induction l with
  | nil => simpa [split1] using h
  | cons d ds ih =>
    by_cases hd : d = sep
    · simp only [split1, hd, if_pos rfl] at h
      subst hd
      exact List.mem_cons_of_mem _ h
    · simp only [split1, hd, if_false, ite_false] at h
      exact List.mem_cons_of_mem _ (ih h)

theorem ne_sep_of_mem_split1_fst {sep c : Char} {l : List Char}
    (h : c ∈ (split1 sep l).1) : c ≠ sep := by
  induction l with
  | nil => simp [split1] at h
  | cons d ds ih =>
    by_cases hd : d = sep
    · simp [split1, hd] at h
    · simp only [split1, hd, if_false, ite_false] at h
      rcases List.mem_cons.mp h with rfl | h
      · exact hd
      · exact ih h

/-! ## pySplit / pyJoin lemmas -/

theorem pySplit_ne_nil (sep : Char) (l : List Char) : pySplit sep l ≠ [] := by
  induction l with
  | nil => simp [pySplit]
  | cons c cs ih =>
    by_cases hc : c = sep
    · simp [pySplit, hc]
    · cases hs : pySplit sep cs with
      | nil => exact absurd hs ih
      | cons s ss => simp [pySplit, hc, hs]

theorem mem_of_mem_pySplit {sep : Char} {l : List Char} :
    ∀ s ∈ pySplit sep l, ∀ c ∈ s, c ∈ l := by
  induction l with
  | nil =>
    intro s hs c hc
    simp only [pySplit, List.mem_singleton] at hs
    subst hs
    cases hc
  | cons d ds ih =>
    intro s hs c hc
    by_cases hd : d = sep
    · simp only [pySplit, hd, if_pos rfl] at hs
      rcases List.mem_cons.mp hs with rfl | hs
      · cases hc
      · exact List.mem_cons_of_mem _ (ih s hs c hc)
    · simp only [pySplit, hd, ite_false] at hs
      cases hq : pySplit sep ds with
      | nil => exact absurd hq (pySplit_ne_nil sep ds)
      | cons t ts =>
        rw [hq] at hs
        rcases List.mem_cons.mp hs with rfl | hs
        · rcases List.mem_cons.mp hc with rfl | hc
          · simp
          · exact List.mem_cons_of_mem _ (ih t (by simp [hq]) c hc)
        · exact List.mem_cons_of_mem _
            (ih s (by simp [hq, hs]) c hc)

theorem not_sep_of_mem_pySplit {sep : Char} {l : List Char} :
    ∀ s ∈ pySplit sep l, sep ∉ s := by
  induction l with
  | nil =>
    intro s hs
    simp only [pySplit, List.mem_singleton] at hs
    subst hs
    simp
  | cons d ds ih =>
    intro s hs
    by_cases hd : d = sep
    · simp only [pySplit, hd, if_pos rfl] at hs
      rcases List.mem_cons.mp hs with rfl | hs
      · simp
      · exact ih s hs
    · simp only [pySplit, hd, ite_false] at hs
      cases hq : pySplit sep ds with
      | nil => exact absurd hq (pySplit_ne_nil sep ds)
      | cons t ts =>
        rw [hq] at hs
        rcases List.mem_cons.mp hs with rfl | hs
        · intro hmem
          rcases List.mem_cons.mp hmem with heq | hmem
          · exact hd heq.symm
          · exact ih t (by simp [hq]) hmem
        · exact ih s (by simp [hq, hs])

theorem pyJoin_pySplit (sep : Char) (l : List Char) :
    pyJoin sep (pySplit sep l) = l := by
  induction l with
  | nil => rfl
  | cons d ds ih =>
    by_cases hd : d = sep
    · subst hd
      simp only [pySplit, if_pos rfl]
      cases hq : pySplit d ds with
      | nil => exact absurd hq (pySplit_ne_nil d ds)
      | cons t ts =>
        simp only [pyJoin]
        rw [← hq, ih]
        simp
    · simp only [pySplit, hd, ite_false]
      cases hq : pySplit sep ds with
      | nil => exact absurd hq (pySplit_ne_nil sep ds)
      | cons t ts =>
        cases ts with
        | nil =>
          simp only [pyJoin]
          rw [hq] at ih
          simp only [pyJoin] at ih
          simp [ih]
        | cons t' ts' =>
          simp only [pyJoin, List.cons_append]
          rw [hq] at ih
          simp only [pyJoin] at ih
          simp [ih]

theorem pySplit_not_mem {sep : Char} {l : List Char} (h : sep ∉ l) :
    pySplit sep l = [l] := by
  induction l with
  | nil => rfl
  | cons c cs ih =>
    have hc : c ≠ sep := by rintro rfl; exact h (by simp)
    have hcs : sep ∉ cs := fun hm => h (by simp [hm])
    simp only [pySplit, hc, ite_false, ih hcs]

theorem pySplit_append {sep : Char} {a b : List Char} (h : sep ∉ a) :
    pySplit sep (a ++ sep :: b) = a :: pySplit sep b := by
  induction a with
  | nil => simp [pySplit]
  | cons c cs ih =>
    have hc : c ≠ sep := by rintro rfl; exact h (by simp)
    have hcs : sep ∉ cs := fun hm => h (by simp [hm])
    show pySplit sep (c :: (cs ++ sep :: b)) = (c :: cs) :: pySplit sep b
    simp only [pySplit, hc, ite_false]
    rw [ih hcs]

theorem pySplit_pyJoin {sep : Char} :
    ∀ {parts : List (List Char)}, parts ≠ [] →
      (∀ s ∈ parts, sep ∉ s) → pySplit sep (pyJoin sep parts) = parts := by
  intro parts
  induction parts with
  | nil => intro h; exact absurd rfl h
  | cons s rest ih =>
    intro _ hall
    cases rest with
    | nil =>
      simp only [pyJoin]
      exact pySplit_not_mem (hall s (by simp))
    | cons s' rest' =>
      simp only [pyJoin]
      rw [pySplit_append (hall s (by simp))]
      rw [ih (by simp) fun x hx => hall x (List.mem_cons_of_mem _ hx)]

theorem mem_pyJoin {sep c : Char} :
    ∀ {parts : List (List Char)}, c ∈ pyJoin sep parts →
      c = sep ∨ ∃ s ∈ parts, c ∈ s := by
  intro parts
  induction parts with
  | nil => intro h; cases h
  | cons s rest ih =>
    intro h
    cases rest with
    | nil =>
      simp only [pyJoin] at h
      exact Or.inr ⟨s, by simp, h⟩
    | cons s' rest' =>
      simp only [pyJoin] at h
      rcases List.mem_append.mp h with h | h
      · exact Or.inr ⟨s, by simp, h⟩
      · rcases List.mem_cons.mp h with rfl | h
        · exact Or.inl rfl
        · rcases ih h with h | ⟨t, ht, hc⟩
          · exact Or.inl h
          · exact Or.inr ⟨t, List.mem_cons_of_mem _ ht, hc⟩

/-! ## lexLe and insertion-sort lemmas -/

theorem lexLe_cons_iff (a b : Char) (as_ bs : List Char) :
    lexLe (a :: as_) (b :: bs) = true ↔
      a.toNat < b.toNat ∨ (a.toNat = b.toNat ∧ lexLe as_ bs = true) := by
  simp only [lexLe]
  split_ifs with h1 h2
  · simp [h1]
  · constructor
    · intro h; cases h
    · intro h
      rcases h with h | ⟨h, -⟩ <;> omega
  · have he : a.toNat = b.toNat := by omega
    simp [he]

theorem lexLe_trans :
    ∀ (a b c : List Char), lexLe a b = true → lexLe b c = true →
      lexLe a c = true
  | [], _, _, _, _ => rfl
  | _ :: _, [], _, h1, _ => by simp [lexLe] at h1
  | _ :: _, _ :: _, [], _, h2 => by simp [lexLe] at h2
  | a :: as_, b :: bs, c :: cs, h1, h2 => by
    rw [lexLe_cons_iff] at h1 h2 ⊢
    rcases h1 with h1 | ⟨h1e, h1r⟩
    · rcases h2 with h2 | ⟨h2e, -⟩
      · exact Or.inl (by omega)
      · exact Or.inl (by omega)
    · rcases h2 with h2 | ⟨h2e, h2r⟩
      · exact Or.inl (by omega)
      · exact Or.inr ⟨by omega, lexLe_trans as_ bs cs h1r h2r⟩

theorem lexLe_total : ∀ (a b : List Char),
    lexLe a b = true ∨ lexLe b a = true
  | [], _ => Or.inl rfl
  | _ :: _, [] => Or.inr rfl
  | a :: as_, b :: bs => by
    rw [lexLe_cons_iff, lexLe_cons_iff]
    rcases Nat.lt_trichotomy a.toNat b.toNat with h | h | h
    · exact Or.inl (Or.inl h)
    · rcases lexLe_total as_ bs with hr | hr
      · exact Or.inl (Or.inr ⟨h, hr⟩)
      · exact Or.inr (Or.inr ⟨h.symm, hr⟩)
    · exact Or.inr (Or.inl h)

theorem mem_insertSorted {b a : List Char} {l : List (List Char)} :
    b ∈ insertSorted a l ↔ b = a ∨ b ∈ l := by
  induction l with
  | nil => simp [insertSorted]
  | cons x xs ih =>
    by_cases h : lexLe a x = true
    · simp [insertSorted, h]
    · have hstep : insertSorted a (x :: xs) = x :: insertSorted a xs := by
        simp [insertSorted, h]
      rw [hstep]
      simp only [List.mem_cons, ih]
      tauto

theorem mem_pySorted {b : List Char} {l : List (List Char)} :
    b ∈ pySorted l ↔ b ∈ l := by
  induction l with
  | nil => simp [pySorted]
  | cons x xs ih =>
    simp only [pySorted, mem_insertSorted, List.mem_cons, ih]

theorem pySorted_length (l : List (List Char)) :
    (pySorted l).length = l.length := by
  induction l with
  | nil => rfl
  | cons x xs ih =>
    have hlen : ∀ (a : List Char) (m : List (List Char)),
        (insertSorted a m).length = m.length + 1 := by
      intro a m
      induction m with
      | nil => rfl
      | cons y ys ihm =>
        by_cases h : lexLe a y = true
        · simp [insertSorted, h]
        · simp [insertSorted, h, ihm]
    simp [pySorted, hlen, ih]

theorem pairwise_insertSorted {a : List Char} {l : List (List Char)}
    (hl : l.Pairwise (fun x y => lexLe x y = true)) :
    (insertSorted a l).Pairwise (fun x y => lexLe x y = true) := by
  induction l with
  | nil => simp [insertSorted]
  | cons b bs ih =>
    rcases List.pairwise_cons.mp hl with ⟨hb, hbs⟩
    by_cases h : lexLe a b = true
    · simp only [insertSorted, h, ite_true]
      refine List.pairwise_cons.mpr ⟨?_, hl⟩
      intro x hx
      rcases List.mem_cons.mp hx with rfl | hx
      · exact h
      · exact lexLe_trans a b x h (hb x hx)
    · simp only [insertSorted, h, ite_false]
      refine List.pairwise_cons.mpr ⟨?_, ih hbs⟩
      intro x hx
      rcases mem_insertSorted.mp hx with heq | hx
      · rw [heq]
        rcases lexLe_total a b with ha | ha
        · exact absurd ha h
        · exact ha
      · exact hb x hx

theorem pairwise_pySorted (l : List (List Char)) :
    (pySorted l).Pairwise (fun x y => lexLe x y = true) := by
  induction l with
  | nil => simp [pySorted]
  | cons x xs ih => exact pairwise_insertSorted ih

theorem pySorted_of_pairwise {l : List (List Char)}
    (h : l.Pairwise (fun x y => lexLe x y = true)) : pySorted l = l := by
  induction l with
  | nil => rfl
  | cons a as_ ih =>
    rcases List.pairwise_cons.mp h with ⟨ha, has⟩
    simp only [pySorted, ih has]
    cases as_ with
    | nil => rfl
    | cons b bs =>
      simp [insertSorted, ha b (by simp)]

/-! ## sortQuery lemmas -/

theorem mem_sortQuery {c : Char} {q : List Char} (h : c ∈ sortQuery q) :
    c = '&' ∨ c ∈ q := by
  rcases mem_pyJoin h with h | ⟨s, hs, hc⟩
  · exact Or.inl h
  · exact Or.inr
      (mem_of_mem_pySplit s (mem_pySorted.mp hs) c hc)

theorem pySplit_eq_nil_nil {sep : Char} {l : List Char}
    (h : pySplit sep l = [[]]) : l = [] := by
  have := pyJoin_pySplit sep l
  rw [h] at this
  simpa [pyJoin] using this.symm

theorem sortQuery_ne_nil {q : List Char} (hq : q ≠ []) :
    sortQuery q ≠ [] := by
  intro h
  cases hp : pySorted (pySplit '&' q) with
  | nil =>
    have := pySorted_length (pySplit '&' q)
    rw [hp] at this
    have h2 : pySplit '&' q = [] := List.length_eq_zero.mp this.symm
    exact pySplit_ne_nil '&' q h2
  | cons s ss =>
    cases ss with
    | nil =>
      rw [sortQuery, hp] at h
      simp only [pyJoin] at h
      subst h
      have hmem : ([] : List Char) ∈ pySplit '&' q := by
        rw [← mem_pySorted (l := pySplit '&' q), hp]
        simp
      have hlen := pySorted_length (pySplit '&' q)
      rw [hp] at hlen
      have h1 : pySplit '&' q = [[]] := by
        cases hqq : pySplit '&' q with
        | nil => exact absurd hqq (pySplit_ne_nil '&' q)
        | cons t ts =>
          rw [hqq] at hlen
          simp at hlen
          rw [hqq] at hmem
          cases ts with
          | nil =>
            rcases List.mem_singleton.mp hmem with rfl
            rfl
          | cons t' ts' => simp at hlen
      exact hq (pySplit_eq_nil_nil h1)
    | cons s' ss' =>
      rw [sortQuery, hp] at h
      simp [pyJoin] at h
  
theorem sortQuery_sortQuery (q : List Char) :
    sortQuery (sortQuery q) = sortQuery q := by
  have hparts : pySplit '&' (sortQuery q) = pySorted (pySplit '&' q) := by
    rw [sortQuery]
    apply pySplit_pyJoin
    · intro h
      have := pySorted_length (pySplit '&' q)
      rw [h] at this
      exact pySplit_ne_nil '&' q (List.length_eq_zero.mp this.symm)
    · intro s hs
      exact not_sep_of_mem_pySplit s (mem_pySorted.mp hs)
  rw [sortQuery, hparts,
    pySorted_of_pairwise (pairwise_pySorted (pySplit '&' q))]
  rfl

/-! ## rstripSlash / orSlash / pyLower / stripDefaultPort lemmas -/

theorem rstripSlash_idem (l : List Char) :
    rstripSlash (rstripSlash l) = rstripSlash l := by
  induction l with
  | nil => rfl
  | cons c cs ih =>
    simp only [rstripSlash]
    by_cases h : rstripSlash cs = [] ∧ c = '/'
    · rw [if_pos h]
      rfl
    · rw [if_neg h]
      simp only [rstripSlash, ih]
      rw [if_neg h]

theorem mem_rstripSlash {c : Char} {l : List Char} (h : c ∈ rstripSlash l) :
    c ∈ l := by
  induction l with
  | nil => cases h
  | cons d ds ih =>
    simp only [rstripSlash] at h
    by_cases hd : rstripSlash ds = [] ∧ d = '/'
    · rw [if_pos hd] at h
      cases h
    · rw [if_neg hd] at h
      rcases List.mem_cons.mp h with rfl | h
      · simp
      · exact List.mem_cons_of_mem _ (ih h)

theorem rstripSlash_head (c : Char) (cs : List Char) :
    rstripSlash (c :: cs) = [] ∨ ∃ r, rstripSlash (c :: cs) = c :: r := by
  simp only [rstripSlash]
  by_cases h : rstripSlash cs = [] ∧ c = '/'
  · rw [if_pos h]
    exact Or.inl rfl
  · rw [if_neg h]
    exact Or.inr ⟨_, rfl⟩

theorem normPath_stable (p : List Char) :
    orSlash (rstripSlash (orSlash (rstripSlash p))) =
      orSlash (rstripSlash p) := by
  cases hr : rstripSlash p with
  | nil =>
    show orSlash (rstripSlash (orSlash [])) = orSlash []
    decide
  | cons c cs =>
    have h1 : orSlash (c :: cs) = c :: cs := by simp [orSlash]
    rw [h1, ← hr, rstripSlash_idem, hr, h1]

theorem pyLower_pyLower (l : List Char) :
    pyLower (pyLower l) = pyLower l := by
  simp only [pyLower, List.map_map]
  apply List.map_congr_left
  intro c _
  exact char_toLower_toLower c

theorem stripDefaultPort_take (s n : List Char) :
    ∃ k, stripDefaultPort s n = n.take k := by
  unfold stripDefaultPort
  split_ifs
  · exact ⟨n.length - 3, rfl⟩
  · exact ⟨n.length - 4, rfl⟩
  · exact ⟨n.length, (List.take_length _).symm⟩

theorem pyLower_stripDefaultPort (s n : List Char) :
    pyLower (stripDefaultPort s (pyLower n)) =
      stripDefaultPort s (pyLower n) := by
  obtain ⟨k, hk⟩ := stripDefaultPort_take s (pyLower n)
  rw [hk]
  calc pyLower ((pyLower n).take k)
      = (pyLower (pyLower n)).take k := by
        simp [pyLower, List.map_take]
    _ = (pyLower n).take k := by rw [pyLower_pyLower]

theorem mem_stripDefaultPort {c : Char} {s n : List Char}
    (h : c ∈ stripDefaultPort s n) : c ∈ n := by
  obtain ⟨k, hk⟩ := stripDefaultPort_take s n
  rw [hk] at h
  exact List.take_subset k n h

/-! ## validScheme and splitScheme lemmas -/

theorem all_schemeChar_of_validScheme {l : List Char}
    (h : validScheme l = true) : ∀ x ∈ l, isSchemeChar x = true := by
  cases l with
  | nil => simp [validScheme] at h
  | cons c cs =>
    simp only [validScheme, Bool.and_eq_true, List.all_eq_true] at h
    exact h.2

theorem validScheme_head_alpha {c : Char} {cs : List Char}
    (h : validScheme (c :: cs) = true) : c.isAlpha = true := by
  simp only [validScheme, Bool.and_eq_true] at h
  exact h.1

theorem validScheme_pyLower {l : List Char} (h : validScheme l = true) :
    validScheme (pyLower l) = true := by
  cases l with
  | nil => simp [validScheme] at h
  | cons c cs =>
    simp only [validScheme, Bool.and_eq_true, List.all_eq_true] at h
    obtain ⟨ha, hall⟩ := h
    show validScheme (Char.toLower c :: pyLower cs) = true
    simp only [validScheme, Bool.and_eq_true, List.all_eq_true]
    constructor
    · exact char_isAlpha_toLower ha
    · intro x hx
      rcases List.mem_cons.mp hx with rfl | hx
      · exact isSchemeChar_toLower (hall c (by simp))
      · rcases List.mem_map.mp hx with ⟨d, hd, rfl⟩
        exact isSchemeChar_toLower (hall d (List.mem_cons_of_mem _ hd))

theorem colon_not_mem_of_validScheme {l : List Char}
    (h : validScheme l = true) : ':' ∉ l := by
  intro hm
  exact isSchemeChar_ne_colon (all_schemeChar_of_validScheme h _ hm) rfl

theorem splitScheme_cases (x : List Char) :
    splitScheme x = ([], x) ∨
    ∃ pre, validScheme pre = true ∧ pre ≠ [] ∧
      splitScheme x = (pyLower pre, x.drop (pre.length + 1)) := by
  simp only [splitScheme]
  split
  next hcond => exact Or.inr ⟨_, hcond.2.2, hcond.2.1, rfl⟩
  next => exact Or.inl rfl

theorem splitScheme_snd_subset (x : List Char) :
    ∀ c ∈ (splitScheme x).2, c ∈ x := by
  simp only [splitScheme]
  split
  · intro c hc
    exact List.drop_subset _ _ hc
  · intro c hc
    exact hc

/-- The reparse step for the scheme: on scheme ++ ":" ++ rest with a valid
lowercase scheme, splitScheme recovers exactly the scheme and the rest. -/
theorem splitScheme_reparse {s rest : List Char} (hne : s ≠ [])
    (hv : validScheme s = true) (hlow : pyLower s = s) :
    splitScheme (s ++ ':' :: rest) = (s, rest) := by
  have htw : (s ++ ':' :: rest).takeWhile (fun c => c ≠ ':') = s := by
    apply takeWhile_append_stop
    · intro c hc
      simp only [ne_eq, decide_eq_true_eq]
      exact isSchemeChar_ne_colon (all_schemeChar_of_validScheme hv _ hc)
    · simp
  simp only [splitScheme, htw]
  rw [if_pos]
  · rw [hlow, drop_append_cons]
  · refine ⟨?_, hne, hv⟩
    have : (s ++ ':' :: rest).length = s.length + (rest.length + 1) := by
      simp [List.length_append]
    omega

/-! ## cleanUrl and component-property lemmas -/

theorem noTab_cleanUrl (u : List Char) :
    ∀ c ∈ cleanUrl u, isTabCrLf c = false := by
  intro c hc
  simp only [cleanUrl, List.mem_filter, Bool.not_eq_eq_eq_not,
    Bool.not_true] at hc
  exact hc.2

theorem cleanUrl_eq_self {c : Char} {cs : List Char}
    (hc : isC0OrSpace c = false)
    (hall : ∀ x ∈ c :: cs, isTabCrLf x = false) :
    cleanUrl (c :: cs) = c :: cs := by
  simp only [cleanUrl, List.dropWhile_cons, hc, Bool.false_eq_true, if_false]
  apply List.filter_eq_self.mpr
  intro a ha
  simp [hall a ha]

theorem splitNetloc_fst_subset (x : List Char) :
    ∀ c ∈ (splitNetloc x).1, c ∈ x := by
  simp only [splitNetloc]
  split
  · intro c hc
    exact List.drop_subset _ _ ((List.takeWhile_prefix _).subset hc)
  · intro c hc
    cases hc

theorem splitNetloc_snd_subset (x : List Char) :
    ∀ c ∈ (splitNetloc x).2, c ∈ x := by
  simp only [splitNetloc]
  split
  · intro c hc
    exact List.drop_subset _ _ (List.drop_subset _ _ hc)
  · intro c hc
    exact hc

theorem splitNetloc_fst_not_delim (x : List Char) :
    ∀ c ∈ (splitNetloc x).1, isNetlocDelim c = false := by
  simp only [splitNetloc]
  split
  · intro c hc
    have := List.mem_takeWhile_imp hc
    simpa using this
  · intro c hc
    cases hc

theorem pyUrlsplit_netloc_not_delim (u : List Char) :
    ∀ c ∈ (pyUrlsplit u).netloc, isNetlocDelim c = false := by
  intro c hc
  exact splitNetloc_fst_not_delim _ c hc

theorem pyUrlsplit_netloc_subset (u : List Char) :
    ∀ c ∈ (pyUrlsplit u).netloc, c ∈ cleanUrl u := by
  intro c hc
  exact splitScheme_snd_subset _ c (splitNetloc_fst_subset _ c hc)

theorem pyUrlsplit_path_subset (u : List Char) :
    ∀ c ∈ (pyUrlsplit u).path, c ∈ cleanUrl u := by
  intro c hc
  exact splitScheme_snd_subset _ c (splitNetloc_snd_subset _ c
    (mem_split1_fst (mem_split1_fst hc)))

theorem pyUrlsplit_query_subset (u : List Char) :
    ∀ c ∈ (pyUrlsplit u).query, c ∈ cleanUrl u := by
  intro c hc
  exact splitScheme_snd_subset _ c (splitNetloc_snd_subset _ c
    (mem_split1_fst (mem_split1_snd hc)))

theorem pyUrlsplit_path_ne (u : List Char) :
    ∀ c ∈ (pyUrlsplit u).path, c ≠ '?' ∧ c ≠ '#' := by
  intro c hc
  exact ⟨ne_sep_of_mem_split1_fst hc,
    ne_sep_of_mem_split1_fst (mem_split1_fst hc)⟩

theorem pyUrlsplit_query_ne_hash (u : List Char) :
    ∀ c ∈ (pyUrlsplit u).query, c ≠ '#' := by
  intro c hc
  exact ne_sep_of_mem_split1_fst (mem_split1_snd hc)

theorem pyUrlparse_scheme (u : List Char) :
    (pyUrlparse u).scheme = (pyUrlsplit u).scheme := by
  simp only [pyUrlparse]
  split <;> rfl

theorem pyUrlparse_netloc (u : List Char) :
    (pyUrlparse u).netloc = (pyUrlsplit u).netloc := by
  simp only [pyUrlparse]
  split <;> rfl

theorem pyUrlparse_query (u : List Char) :
    (pyUrlparse u).query = (pyUrlsplit u).query := by
  simp only [pyUrlparse]
  split <;> rfl

theorem mem_lastSeg {c : Char} {l : List Char} (h : c ∈ lastSeg l) :
    c ∈ l := by
  simp only [lastSeg, List.mem_reverse] at h
  rw [← List.mem_reverse]
  exact (List.takeWhile_prefix _).subset h

theorem mem_splitParams_fst {c : Char} {l : List Char}
    (h : c ∈ (splitParams l).1) : c ∈ l := by
  simp only [splitParams] at h
  split at h
  · split at h
    · rcases List.mem_append.mp h with h | h
      · exact List.take_subset _ _ h
      · exact mem_lastSeg (mem_split1_fst h)
    · exact h
  · exact mem_split1_fst h

theorem pyUrlparse_path_subset' (u : List Char) :
    ∀ c ∈ (pyUrlparse u).path, c ∈ (pyUrlsplit u).path := by
  simp only [pyUrlparse]
  split
  · intro c hc
    exact mem_splitParams_fst hc
  · intro c hc
    exact hc

theorem splitParams_no_semi {l : List Char} (h : ';' ∉ l) :
    splitParams l = (l, []) := by
  simp only [splitParams]
  split
  · rw [if_neg fun hmem => h (mem_lastSeg hmem)]
  · exact split1_not_mem h

/-! ## Properties of the normalized components -/

theorem normScheme_full (u : List Char) (h1 : normScheme u ≠ []) :
    validScheme (normScheme u) = true ∧
      pyLower (normScheme u) = normScheme u := by
  rcases splitScheme_cases (cleanUrl u) with hc | ⟨pre, hv, -, heq⟩
  · exfalso
    apply h1
    rw [normScheme, pyUrlparse_scheme]
    show pyLower (splitScheme (cleanUrl u)).1 = []
    rw [hc]
    rfl
  · have hS : normScheme u = pyLower pre := by
      rw [normScheme, pyUrlparse_scheme]
      show pyLower (splitScheme (cleanUrl u)).1 = pyLower pre
      rw [heq, pyLower_pyLower]
    rw [hS]
    exact ⟨validScheme_pyLower hv, pyLower_pyLower pre⟩

theorem normNetloc_props (u : List Char) :
    (∀ c ∈ normNetloc u, isNetlocDelim c = false ∧ isTabCrLf c = false) ∧
      pyLower (normNetloc u) = normNetloc u := by
  constructor
  · intro c hc
    have hm : c ∈ pyLower (pyUrlparse u).netloc := mem_stripDefaultPort hc
    rcases List.mem_map.mp hm with ⟨d, hd, rfl⟩
    rw [pyUrlparse_netloc] at hd
    constructor
    · cases hdd : isNetlocDelim (Char.toLower d) with
      | false => rfl
      | true =>
        have := isNetlocDelim_of_toLower hdd
        rw [pyUrlsplit_netloc_not_delim u d hd] at this
        cases this
    · cases hdd : isTabCrLf (Char.toLower d) with
      | false => rfl
      | true =>
        have := isTabCrLf_of_toLower hdd
        rw [noTab_cleanUrl u d (pyUrlsplit_netloc_subset u d hd)] at this
        cases this
  · exact pyLower_stripDefaultPort (normScheme u) (pyUrlparse u).netloc

theorem normPath_props (u : List Char) :
    ∀ c ∈ normPath u, c ≠ '?' ∧ c ≠ '#' ∧ isTabCrLf c = false := by
  intro c hc
  by_cases hr : rstripSlash (pyUrlparse u).path = []
  · rw [normPath, hr] at hc
    have horb : orSlash ([] : List Char) = ['/'] := rfl
    rw [horb] at hc
    rcases List.mem_singleton.mp hc with rfl
    exact ⟨by decide, by decide, by decide⟩
  · rw [normPath] at hc
    simp only [orSlash, hr, ite_false] at hc
    have hm := pyUrlparse_path_subset' u c (mem_rstripSlash hc)
    obtain ⟨hq, hh⟩ := pyUrlsplit_path_ne u c hm
    exact ⟨hq, hh, noTab_cleanUrl u c (pyUrlsplit_path_subset u c hm)⟩

theorem normPath_head (u : List Char)
    (h2 : (pyUrlparse u).path = [] ∨
      ∃ p', (pyUrlparse u).path = '/' :: p') :
    ∃ P', normPath u = '/' :: P' := by
  rcases h2 with h2 | ⟨p', h2⟩
  · rw [normPath, h2]
    exact ⟨[], rfl⟩
  · rw [normPath, h2]
    rcases rstripSlash_head '/' p' with hh | ⟨r, hh⟩
    · rw [hh]
      exact ⟨[], rfl⟩
    · rw [hh]
      exact ⟨r, by simp [orSlash]⟩

theorem normQuery_props (u : List Char) :
    ∀ c ∈ normQuery u, c ≠ '#' ∧ isTabCrLf c = false := by
  intro c hc
  by_cases hq : (pyUrlparse u).query = []
  · rw [normQuery, if_pos hq, hq] at hc
    cases hc
  · rw [normQuery, if_neg hq] at hc
    rcases mem_sortQuery hc with rfl | hm
    · exact ⟨by decide, by decide⟩
    · rw [pyUrlparse_query] at hm
      exact ⟨pyUrlsplit_query_ne_hash u c hm,
        noTab_cleanUrl u c (pyUrlsplit_query_subset u c hm)⟩

/-! ## Reparse of the normalized URL -/

theorem splitNetloc_reparse {H rest : List Char}
    (hH : ∀ c ∈ H, isNetlocDelim c = false) :
    splitNetloc ('/' :: '/' :: (H ++ '/' :: rest)) = (H, '/' :: rest) := by
  have htw : (H ++ '/' :: rest).takeWhile (fun c => !isNetlocDelim c) = H :=
    takeWhile_append_stop _ H '/' rest (fun c hc => by simp [hH c hc])
      (by decide)
  simp only [splitNetloc]
  rw [if_pos (by rfl)]
  show ((H ++ '/' :: rest).takeWhile (fun c => !isNetlocDelim c),
    (H ++ '/' :: rest).drop
      ((H ++ '/' :: rest).takeWhile (fun c => !isNetlocDelim c)).length) =
    (H, '/' :: rest)
  rw [htw, List.drop_left]

/-- Reparsing the normalized URL recovers its components exactly: scheme,
stripped-lowered netloc, normalized path, sorted query, no fragment. -/
theorem pyUrlsplit_normalize (u : List Char)
    (h1 : normScheme u ≠ [])
    (h2 : (pyUrlparse u).path = [] ∨
      ∃ p', (pyUrlparse u).path = '/' :: p') :
    pyUrlsplit (normalize_url u) =
      ⟨normScheme u, normNetloc u, normPath u, normQuery u, []⟩ := by
  obtain ⟨hSv, hSl⟩ := normScheme_full u h1
  obtain ⟨hHprops, -⟩ := normNetloc_props u
  have hPprops := normPath_props u
  have hQprops := normQuery_props u
  obtain ⟨P', hP⟩ := normPath_head u h2
  have hnu : normalize_url u =
      normScheme u ++ ':' :: '/' :: '/' ::
        (normNetloc u ++ (normPath u ++
          (if normQuery u = [] then [] else '?' :: normQuery u))) := by
    simp only [normalize_url, List.append_assoc, List.cons_append,
      List.nil_append]
  -- tab/cr/lf never occurs in the normalized URL
  have hTabAll : ∀ x ∈ normalize_url u, isTabCrLf x = false := by
    rw [hnu]
    intro x hx
    rcases List.mem_append.mp hx with hx | hx
    · exact isTabCrLf_false_of_isSchemeChar
        (all_schemeChar_of_validScheme hSv x hx)
    · rcases List.mem_cons.mp hx with rfl | hx
      · decide
      · rcases List.mem_cons.mp hx with rfl | hx
        · decide
        · rcases List.mem_cons.mp hx with rfl | hx
          · decide
          · rcases List.mem_append.mp hx with hx | hx
            · exact (hHprops x hx).2
            · rcases List.mem_append.mp hx with hx | hx
              · exact (hPprops x hx).2.2
              · by_cases hq0 : normQuery u = []
                · rw [hq0] at hx
                  simp at hx
                · rw [if_neg hq0] at hx
                  rcases List.mem_cons.mp hx with rfl | hx
                  · decide
                  · exact (hQprops x hx).2
  -- the clean-up step is the identity on the normalized URL
  have hclean : cleanUrl (normalize_url u) = normalize_url u := by
    obtain ⟨c, cs, hcons⟩ := List.exists_cons_of_ne_nil h1
    have halpha : c.isAlpha = true := by
      have := validScheme_head_alpha (hcons ▸ hSv)
      exact this
    have hhead : normalize_url u =
        c :: (cs ++ ':' :: '/' :: '/' ::
          (normNetloc u ++ (normPath u ++
            (if normQuery u = [] then [] else '?' :: normQuery u)))) := by
      rw [hnu, hcons]
      rfl
    rw [hhead]
    apply cleanUrl_eq_self (isC0OrSpace_false_of_isAlpha halpha)
    rw [← hhead]
    exact hTabAll
  -- no '#' after the netloc; no '?' in the path
  have hNoHash : '#' ∉ normPath u ++
      (if normQuery u = [] then [] else '?' :: normQuery u) := by
    intro hm
    rcases List.mem_append.mp hm with hm | hm
    · exact (hPprops _ hm).2.1 rfl
    · by_cases hq0 : normQuery u = []
      · rw [if_pos hq0] at hm
        cases hm
      · rw [if_neg hq0] at hm
        rcases List.mem_cons.mp hm with heq | hm
        · cases heq
        · exact (hQprops _ hm).1 rfl
  have hNoQinP : '?' ∉ normPath u := fun hm => (hPprops _ hm).1 rfl
  -- assemble the split
  simp only [pyUrlsplit]
  rw [hclean, hnu, splitScheme_reparse h1 hSv hSl]
  have hP' : normNetloc u ++ (normPath u ++
      (if normQuery u = [] then [] else '?' :: normQuery u)) =
      normNetloc u ++ '/' ::
        (P' ++ (if normQuery u = [] then [] else '?' :: normQuery u)) := by
    rw [hP]
    simp
  rw [show ((normScheme u, '/' :: '/' ::
      (normNetloc u ++ (normPath u ++
        (if normQuery u = [] then [] else '?' :: normQuery u)))) :
      List Char × List Char).2 = '/' :: '/' ::
      (normNetloc u ++ (normPath u ++
        (if normQuery u = [] then [] else '?' :: normQuery u))) from rfl]
  rw [hP', splitNetloc_reparse fun c hc => (hHprops c hc).1]
  have hback : '/' :: (P' ++
      (if normQuery u = [] then [] else '?' :: normQuery u)) =
      normPath u ++ (if normQuery u = [] then [] else '?' :: normQuery u) :=
    by rw [hP]; rfl
  dsimp only
  rw [hback, split1_not_mem hNoHash]
  dsimp only
  by_cases hq0 : normQuery u = []
  · rw [if_pos hq0, List.append_nil, split1_not_mem hNoQinP, hq0]
  · rw [if_neg hq0, split1_append hNoQinP]

theorem pyUrlparse_normalize (u : List Char)
    (h1 : normScheme u ≠ [])
    (h2 : (pyUrlparse u).path = [] ∨
      ∃ p', (pyUrlparse u).path = '/' :: p')
    (h3 : normScheme u ∈ usesParams →
      splitParams (normPath u) = (normPath u, [])) :
    pyUrlparse (normalize_url u) =
      ⟨normScheme u, normNetloc u, normPath u, [], normQuery u, []⟩ := by
  have hs := pyUrlsplit_normalize u h1 h2
  simp only [pyUrlparse, hs]
  by_cases hcond : normScheme u ∈ usesParams ∧ ';' ∈ normPath u
  · rw [if_pos hcond, h3 hcond.1]
  · rw [if_neg hcond]

/-! ## C6 — normalization idempotence (corrected) -/

/-- Claim C6 counterexample: normalization is not idempotent on every URL
string: for "a:b" (scheme a, no netloc, relative path b) the first pass
yields "a://b", which reparses with netloc b and empty path, so the second
pass yields "a://b/". -/
theorem normalize_url_not_idempotent :
    normalize_url (normalize_url ("a:b".toList)) ≠
      normalize_url ("a:b".toList) := by
  decide

/-- Claim C6 as amended: _normalize_url is idempotent on every URL whose
parse has a nonempty scheme and an empty or absolute ("/"-initial) path,
and whose normalized output does not hit the two further
non-idempotent edges: its netloc must not again end in a default port
(e.g. host:80:80 with scheme http), and — for schemes that use params —
stripping the trailing slashes must not expose a ';' in the last path
segment (e.g. path /b;y/).  In particular every ordinary absolute
http(s)://host... URL normalizes idempotently; in general the claim is
false (see the counterexample). -/
theorem normalize_url_idem (u : List Char)
    (h1 : normScheme u ≠ [])
    (h2 : (pyUrlparse u).path = [] ∨
      ∃ p', (pyUrlparse u).path = '/' :: p')
    (h3 : normScheme u ∈ usesParams →
      splitParams (normPath u) = (normPath u, []))
    (h4 : stripDefaultPort (normScheme u) (normNetloc u) = normNetloc u) :
    normalize_url (normalize_url u) = normalize_url u := by
  have hp := pyUrlparse_normalize u h1 h2 h3
  obtain ⟨-, hSl⟩ := normScheme_full u h1
  obtain ⟨-, hHl⟩ := normNetloc_props u
  have hnormS : normScheme (normalize_url u) = normScheme u := by
    rw [normScheme, hp]
    exact hSl
  have hnormH : normNetloc (normalize_url u) = normNetloc u := by
    rw [normNetloc, hnormS, hp]
    show stripDefaultPort (normScheme u) (pyLower (normNetloc u)) =
      normNetloc u
    rw [hHl]
    exact h4
  have hnormP : normPath (normalize_url u) = normPath u := by
    rw [normPath, hp]
    show orSlash (rstripSlash (normPath u)) = normPath u
    rw [normPath]
    exact normPath_stable _
  have hnormQ : normQuery (normalize_url u) = normQuery u := by
    rw [normQuery, hp]
    show (if normQuery u = [] then normQuery u
      else sortQuery (normQuery u)) = normQuery u
    by_cases hq : (pyUrlparse u).query = []
    · have hq0 : normQuery u = [] := by rw [normQuery, if_pos hq, hq]
      rw [if_pos hq0]
    · have hq0 : normQuery u = sortQuery (pyUrlparse u).query := by
        rw [normQuery, if_neg hq]
      have hne : normQuery u ≠ [] := by
        rw [hq0]
        exact sortQuery_ne_nil hq
      rw [if_neg hne, hq0, sortQuery_sortQuery]
  show normScheme (normalize_url u) ++ ':' :: '/' :: '/' :: [] ++
      normNetloc (normalize_url u) ++ normPath (normalize_url u) ++
      (let q := normQuery (normalize_url u)
       if q = [] then [] else '?' :: q) = normalize_url u
  rw [hnormS, hnormH, hnormP, hnormQ]
  rfl

/-- Witness for the amended C6 at the spec's own concrete example URL:
normalizing HTTP://Example.COM:80/a/b/?b=2&a=1#frag twice equals
normalizing it once. -/
theorem normalize_url_idem_witness :
    (normScheme ("HTTP://Example.COM:80/a/b/?b=2&a=1#frag".toList) ≠ [] ∧
     ((pyUrlparse ("HTTP://Example.COM:80/a/b/?b=2&a=1#frag".toList)).path =
        [] ∨
      ∃ p', (pyUrlparse
        ("HTTP://Example.COM:80/a/b/?b=2&a=1#frag".toList)).path =
        '/' :: p')) ∧
    normalize_url (normalize_url
      ("HTTP://Example.COM:80/a/b/?b=2&a=1#frag".toList)) =
      normalize_url ("HTTP://Example.COM:80/a/b/?b=2&a=1#frag".toList) :=
  ⟨⟨by decide, Or.inr ⟨("a/b/".toList), by decide⟩⟩,
   normalize_url_idem ("HTTP://Example.COM:80/a/b/?b=2&a=1#frag".toList)
     (by decide) (Or.inr ⟨("a/b/".toList), by decide⟩) (by decide)
     (by decide)⟩
